import Mathlib

/-!
# Unique word counter (`src/main.cc`)

A shallow embedding of `WordProcessor` and a verification of its chunking,
tokenising and merging behaviour.

Modelling conventions
* A byte is a natural number (the `unsigned char` value, `0 .. 255`); a file
  is a list of bytes.  Nothing below depends on the bound, so every statement
  quantified over `List Nat` covers every file.
* `std::unordered_set<std::string>` is a duplicate-free list of words;
  `insert` adds a word only when it is absent, `size` is the length.
* `std::ifstream` is the list of bytes not yet consumed, the number of bytes
  already consumed and the `eofbit` / `failbit` state flags.
* The body of `process_chunk` that runs under `file_mutex_` is atomic, so a
  run of `process_file` is determined by the order in which the workers
  acquire the lock; that order is an explicit argument.
* A worker fails when its task ends with an exception, which `fut.get()`
  rethrows; which tasks do so is an explicit argument.
* The function `main` takes `argv[2]` as the integer its text denotes, of any
  magnitude, or as a text that denotes none; `std::stoi` and its exceptions
  are part of the model.
-/

namespace WordProcessor

/-! ## Character classification (the "C" locale) -/

/-- The `std::isspace` of the classic locale: space, `\t`, `\n`, `\v`, `\f`, `\r`. -/
def isspace (c : Nat) : Bool :=
  c == 32 || (9 ≤ c && c ≤ 13)

/-- The `std::isalnum` of the classic locale: ASCII digits and letters. -/
def isalnum (c : Nat) : Bool :=
  (48 ≤ c && c ≤ 57) || (65 ≤ c && c ≤ 90) || (97 ≤ c && c ≤ 122)

/-- The `::tolower` of the classic locale: ASCII upper-case letters are shifted by 32, all else is kept. -/
def tolower (c : Nat) : Nat :=
  if 65 ≤ c ∧ c ≤ 90 then c + 32 else c

/-! ## Normaliser and tokeniser -/

/-- Method `clean_word`: erase every byte for which `!isalnum`, then map `tolower`. -/
def clean_word (word : List Nat) : List Nat :=
  (word.filter isalnum).map tolower

/-- The raw tokens produced by repeated `stream >> word`: the runs of
non-whitespace bytes.  `cur` is the token being extracted. -/
def tokens_from : List Nat → List Nat → List (List Nat)
  | [], cur => if cur = [] then [] else [cur]
  | c :: cs, cur =>
    if isspace c then
      if cur = [] then tokens_from cs [] else cur :: tokens_from cs []
    else tokens_from cs (cur ++ [c])

/-- All tokens that `stream >> word` yields on `chunk`. -/
def tokens (chunk : List Nat) : List (List Nat) :=
  tokens_from chunk []

/-- The call `set.insert(word)` on an `unordered_set`: a word already present is not
added again. -/
def set_insert (words : List (List Nat)) (word : List Nat) : List (List Nat) :=
  if word ∈ words then words else word :: words

/-- The body of the `while (stream >> word)` loop. -/
def insert_cleaned (words : List (List Nat)) (word : List Nat) : List (List Nat) :=
  if clean_word word = [] then words else set_insert words (clean_word word)

/-- Method `extract_unique_words`: the set of non-empty cleaned tokens of `chunk`. -/
def extract_unique_words (chunk : List Nat) : List (List Nat) :=
  (tokens chunk).foldl insert_cleaned []

/-! ## The shared input stream -/

/-- The state of the `std::ifstream` shared by the workers. -/
structure IfStream where
  /-- Bytes not yet consumed. -/
  rest : List Nat
  /-- Number of bytes consumed so far (the read position). -/
  pos : Nat
  /-- The `eofbit` state flag. -/
  eofbit : Bool
  /-- The `failbit` state flag. -/
  failbit : Bool
deriving DecidableEq

/-- The test `good()`: no state flag is set. -/
def IfStream.good (file : IfStream) : Bool :=
  !file.eofbit && !file.failbit

/-- A freshly opened file, rewound to the beginning. -/
def open_file (content : List Nat) : IfStream :=
  { rest := content, pos := 0, eofbit := false, failbit := false }

/-- The call `file.read(p, n)`: on a stream that is not good only `failbit` is set;
otherwise up to `n` bytes are extracted, and a short read sets
`eofbit | failbit`.  Returns the bytes stored through `p`. -/
def read (file : IfStream) (n : Nat) : IfStream × List Nat :=
  if file.good then
    let got := file.rest.take n
    let file1 : IfStream := { file with rest := file.rest.drop n, pos := file.pos + got.length }
    if got.length < n then ({ file1 with eofbit := true, failbit := true }, got)
    else (file1, got)
  else ({ file with failbit := true }, [])

/-- The call `file.get(c)`: on a stream that is not good only `failbit` is set; at
end-of-stream `eofbit | failbit` is set; otherwise one byte is extracted. -/
def get (file : IfStream) : IfStream × Option Nat :=
  if file.good then
    match file.rest with
    | [] => ({ file with eofbit := true, failbit := true }, none)
    | c :: cs => ({ file with rest := cs, pos := file.pos + 1 }, some c)
  else ({ file with failbit := true }, none)

/-- The loop `while (file.get(c) && c != ' ') buffer += c;` run for at most
`fuel` iterations. -/
def adjust_boundary_loop : Nat → IfStream → List Nat → IfStream × List Nat
  | 0, file, buffer => (file, buffer)
  | fuel + 1, file, buffer =>
    match get file with
    | (file1, some c) =>
      if c ≠ 32 then adjust_boundary_loop fuel file1 (buffer ++ [c]) else (file1, buffer)
    | (file1, none) => (file1, buffer)

/-- Method `adjust_boundary`: every iteration but the last consumes a byte, so
`rest.length + 1` iterations always reach the loop exit
(`adjust_boundary_unfold`). -/
def adjust_boundary (file : IfStream) (buffer : List Nat) : IfStream × List Nat :=
  adjust_boundary_loop (file.rest.length + 1) file buffer

/-- The block of `process_chunk` executed under `file_mutex_`: the final
worker takes everything left in the stream buffer (the `istreambuf_iterator`
range does not look at the state flags); any other worker resizes its buffer
to `chunk_size` zero bytes, reads into it and extends to the next space. -/
def read_chunk (file : IfStream) (chunk_size : Nat) (is_last_chunk : Bool) :
    IfStream × List Nat :=
  if is_last_chunk then
    ({ file with rest := [], pos := file.pos + file.rest.length }, file.rest)
  else
    let buffer := List.replicate chunk_size 0
    let (file1, got) := read file chunk_size
    adjust_boundary file1 (got ++ buffer.drop got.length)

/-- Method `process_chunk`: the locked read followed by `extract_unique_words`. -/
def process_chunk (file : IfStream) (chunk_size : Nat) (is_last_chunk : Bool) :
    IfStream × List (List Nat) :=
  ((read_chunk file chunk_size is_last_chunk).1,
    extract_unique_words (read_chunk file chunk_size is_last_chunk).2)

/-! ## The driver -/

/-- One locked read as seen by the driver: which worker made it, the stream
before and after, and the buffer the worker went on to tokenise. -/
structure ChunkRead where
  /-- Launch index of the worker. -/
  worker : Nat
  /-- Stream state when the lock was acquired. -/
  before : IfStream
  /-- Stream state when the lock was released. -/
  after : IfStream
  /-- The chunk buffer of the worker. -/
  buffer : List Nat
deriving DecidableEq

/-- The locked reads of the workers listed in `order` (launch indices in the
order of lock acquisition).  Worker `i` is launched with
`is_last_chunk = (i == num_threads - 1)`. -/
def locked_reads (num_threads chunk_size : Nat) : List Nat → IfStream → List ChunkRead
  | [], _ => []
  | i :: order, file =>
    let r := read_chunk file chunk_size (i == num_threads - 1)
    { worker := i, before := file, after := r.1, buffer := r.2 } ::
      locked_reads num_threads chunk_size order r.1

/-- The value of `futures[i].get()`: the word set of the worker launched with
index `i`. -/
def future_get (i : Nat) : List ChunkRead → List (List Nat)
  | [] => []
  | r :: rs => if r.worker = i then extract_unique_words r.buffer else future_get i rs

/-- The range insertion `words_.insert(local_set.begin(), local_set.end())`. -/
def insert_range (words_ local_set : List (List Nat)) : List (List Nat) :=
  local_set.foldl set_insert words_

/-- The merge loop over the futures, in launch order. -/
def merge (sets : List (List (List Nat))) : List (List Nat) :=
  sets.foldl insert_range []

/-- The nominal chunk size `file_size / num_threads`. -/
def chunk_size (file_size num_threads : Nat) : Nat :=
  file_size / num_threads

/-- Method `process_file` when the workers acquire the lock in the order `order`.
`file` is `none` when the file cannot be opened.  Returns `words_`. -/
def process_file_ordered (order : List Nat) (num_threads : Nat) (file : Option (List Nat)) :
    Except String (List (List Nat)) :=
  match file with
  | none => Except.error "Failed to open file"
  | some content =>
    let reads :=
      locked_reads num_threads (chunk_size content.length num_threads) order (open_file content)
    Except.ok (merge ((List.range num_threads).map (fun i => future_get i reads)))

/-- Method `process_file` with the locked reads made in launch order. -/
def process_file (num_threads : Nat) (file : Option (List Nat)) :
    Except String (List (List Nat)) :=
  process_file_ordered (List.range num_threads) num_threads file

/-- The number written by `print_result`: `words_.size()`. -/
def print_result (words_ : List (List Nat)) : Nat :=
  words_.length

/-- The count reported for a run: `process_file` then `print_result`. -/
def reported_count (order : List Nat) (num_threads : Nat) (file : Option (List Nat)) :
    Except String Nat :=
  (process_file_ordered order num_threads file).map print_result

/-- The non-empty normalised tokens of a buffer, in order: every token is
cleaned and the empty results are dropped. -/
def norm_tokens (chunk : List Nat) : List (List Nat) :=
  ((tokens chunk).map clean_word).filter (fun w => w ≠ [])

/-- The non-empty normalised tokens still to come when the tokeniser is in the
middle of the token `cur`. -/
def norm_from (s cur : List Nat) : List (List Nat) :=
  ((tokens_from s cur).map clean_word).filter (fun w => w ≠ [])

/-- The stream state after the locked reads of the workers in `order`. -/
def end_state (num_threads chunk_size : Nat) : List Nat → IfStream → IfStream
  | [], file => file
  | i :: order, file =>
    end_state num_threads chunk_size order (read_chunk file chunk_size (i == num_threads - 1)).1

/-- The locked reads of a run in which the workers acquire the lock in launch
order. -/
def launch_reads (num_threads : Nat) (content : List Nat) : List ChunkRead :=
  locked_reads num_threads (chunk_size content.length num_threads) (List.range num_threads)
    (open_file content)

/-- The locked reads of a run of `process_file` on `content` in which the
workers acquire the lock in the order `order`; `launch_reads` is the case
`order = List.range num_threads`. -/
def run_reads (order : List Nat) (num_threads : Nat) (content : List Nat) : List ChunkRead :=
  locked_reads num_threads (chunk_size content.length num_threads) order (open_file content)

/-- The chunk buffers joined in read order with the byte `sep` put back at each
internal boundary between two consecutive buffers. -/
def rejoin (sep : Nat) : List (List Nat) → List Nat
  | [] => []
  | [b] => b
  | b :: b2 :: bs => b ++ sep :: rejoin sep (b2 :: bs)

/-- The bytes of `content` at offsets `start .. stop - 1`. -/
def byte_range (content : List Nat) (start stop : Nat) : List Nat :=
  (content.drop start).take (stop - start)

/-- The ASCII bytes of a string literal. -/
def bytes (s : String) : List Nat :=
  s.toList.map Char.toNat

/-! ## Failing workers and `main` -/

/-- The join loop of `process_file`: `fut.get()` rethrows the exception stored
in the future of a worker that failed, which ends `process_file`; the set of a
worker that succeeded is merged into `words_`. -/
def join_futures :
    List (Except String (List (List Nat))) → List (List Nat) → Except String (List (List Nat))
  | [], words_ => Except.ok words_
  | Except.error e :: _, _ => Except.error e
  | Except.ok local_set :: futures, words_ =>
    join_futures futures (insert_range words_ local_set)

/-- Method `process_file` when tasks may throw: `fault i` is the exception
with which the task of worker `i` ends, if it does; `order` lists the workers
that made their locked read, in the order of lock acquisition. -/
def process_file_faulty (fault : Nat → Option String) (order : List Nat) (num_threads : Nat)
    (file : Option (List Nat)) : Except String (List (List Nat)) :=
  match file with
  | none => Except.error "Failed to open file"
  | some content =>
    let reads :=
      locked_reads num_threads (chunk_size content.length num_threads) order (open_file content)
    join_futures ((List.range num_threads).map (fun i =>
      match fault i with
      | some e => Except.error e
      | none => Except.ok (future_get i reads))) []

/-- Method `process_file` for the `int` worker count stored in the object.
The result `none` stands for the undefined behaviour of dividing `file_size`
by a zero `num_threads`; with a negative count the launch loop and the join
loop run zero times.  The file is opened before the division. -/
def process_file_int (fault : Nat → Option String) (order : List Nat) (num_threads : Int)
    (file : Option (List Nat)) : Option (Except String (List (List Nat))) :=
  match file with
  | none => some (Except.error "Failed to open file")
  | some content =>
    if num_threads = 0 then none
    else if num_threads < 0 then some (Except.ok [])
    else some (process_file_faulty fault order num_threads.toNat (some content))

/-- What a run of `main` leaves behind: the exit code, the count written on
standard output (if a count is written) and the line written on standard
error (if one is). -/
structure MainResult where
  /-- The value returned by `main`. -/
  exit_code : Nat
  /-- The count in the line written by `print_result`. -/
  stdout : Option Nat
  /-- The message written on standard error. -/
  stderr : Option String
deriving DecidableEq

/-- How a run of `main` ends: it returns, or an exception that nothing catches
reaches `std::terminate`, or the behaviour is undefined. -/
inductive Outcome where
  /-- The function `main` returned. -/
  | returned (r : MainResult)
  /-- An uncaught exception whose `what()` is `what` ended the process. -/
  | terminated (what : String)
  /-- Undefined behaviour was reached. -/
  | undefined
deriving DecidableEq

/-- The argument `argv[2]`: absent when `argc < 3`; otherwise either a text
from which no number can be converted, or a text whose numeric prefix denotes
the integer `n`, of any magnitude. -/
inductive Argv2 where
  /-- No third argument: `argc < 3`. -/
  | absent
  /-- A text without a numeric prefix. -/
  | not_a_number
  /-- A text whose numeric prefix denotes `n`. -/
  | number (n : Int)
deriving DecidableEq

/-- Conversion of an `int` to `unsigned int` (32 bits). -/
def unsigned_of_int (n : Int) : Nat :=
  (n % 4294967296).toNat

/-- Conversion of an `unsigned int` to `int` (32 bits, two's complement). -/
def int_of_unsigned (u : Nat) : Int :=
  if u % 4294967296 < 2147483648 then ((u % 4294967296 : Nat) : Int)
  else ((u % 4294967296 : Nat) : Int) - 4294967296

/-- The initialiser of `num_threads` in `main`, which stands before the `try`
block: `std::stoi(argv[2])` throws `std::invalid_argument` when no number can
be converted and `std::out_of_range` when the number does not fit an `int`,
both with `what() = "stoi"`; without `argv[2]` the value is
`std::thread::hardware_concurrency()`.  The conditional operator has type
`unsigned int`, so either value passes through `unsigned int` on its way to
the `int` variable. -/
def num_threads_of (arg : Argv2) (hardware_concurrency : Nat) : Except String Int :=
  match arg with
  | Argv2.absent => Except.ok (int_of_unsigned hardware_concurrency)
  | Argv2.not_a_number => Except.error "stoi"
  | Argv2.number n =>
    if -2147483648 ≤ n ∧ n ≤ 2147483647 then Except.ok (int_of_unsigned (unsigned_of_int n))
    else Except.error "stoi"

/-- Function `main`.  `filename` is `argv[1]`, absent when `argc < 2`; `arg`
is `argv[2]`; `fs` gives the content of the files that can be opened; `fault`
and `order` are the failures and the lock order of the workers.  An exception
of `std::stoi` is thrown outside the `try` block and ends the process; an
exception of `process_file` is caught and gives exit code 1. -/
def main (filename : Option String) (arg : Argv2) (hardware_concurrency : Nat)
    (fs : String → Option (List Nat)) (fault : Nat → Option String) (order : List Nat) :
    Outcome :=
  match filename with
  | none => Outcome.returned ⟨1, none, some "Usage: argv0 <filename> [num_threads]"⟩
  | some name =>
    match num_threads_of arg hardware_concurrency with
    | Except.error what => Outcome.terminated what
    | Except.ok num_threads =>
      if num_threads ≤ 0 then
        Outcome.returned ⟨1, none, some "Invalid number of threads."⟩
      else
        match process_file_int fault order num_threads (fs name) with
        | none => Outcome.undefined
        | some (Except.ok words_) => Outcome.returned ⟨0, some (print_result words_), none⟩
        | some (Except.error e) => Outcome.returned ⟨1, none, some e⟩

/-! ## Vocabulary of the specification -/

/-- The token `t` is a maximal run of non-whitespace bytes of `buffer`: it is
not empty, holds no whitespace byte, and in `buffer` it is preceded by a
whitespace byte or the start and followed by a whitespace byte or the end. -/
def maximal_run (buffer t : List Nat) : Prop :=
  t ≠ [] ∧ (∀ c ∈ t, isspace c = false) ∧
    ∃ pre post, buffer = pre ++ t ++ post ∧
      (∀ c ∈ pre.getLast?, isspace c = true) ∧ (∀ c ∈ post.head?, isspace c = true)

/-- The opposite-case form of an ASCII letter; any other byte is kept. -/
def swap_case (c : Nat) : Nat :=
  if 65 ≤ c ∧ c ≤ 90 then c + 32 else if 97 ≤ c ∧ c ≤ 122 then c - 32 else c

/-- The file `content` with the byte at every position flagged in `flips`
replaced by its opposite-case form; positions without a flag are kept. -/
def recase : List Bool → List Nat → List Nat
  | _, [] => []
  | [], c :: cs => c :: cs
  | b :: bs, c :: cs => (if b then swap_case c else c) :: recase bs cs

end WordProcessor

/-! # Lemmas -/

namespace WordProcessor

theorem isspace_32 : isspace 32 = true := by decide

theorem tokens_from_append_space (a r : List Nat) (w : Nat) (hw : isspace w = true) (cur : List Nat) :
    tokens_from (a ++ w :: r) cur = tokens_from a cur ++ tokens_from r [] := by
  induction a generalizing cur with
  | nil =>
    by_cases hc : cur = [] <;> simp [tokens_from, hw, hc]
  | cons c cs ih =>
    by_cases hs : isspace c = true
    · by_cases hc : cur = [] <;> simp [tokens_from, hs, hc, ih]
    · simp [tokens_from, hs, ih]

theorem clean_word_append (a b : List Nat) : clean_word (a ++ b) = clean_word a ++ clean_word b := by
  simp [clean_word]

theorem clean_word_zeros (k : Nat) : clean_word (List.replicate k 0) = [] := by
  induction k with
  | zero => rfl
  | succ k ih =>
    rw [List.replicate_succ]
    simp [clean_word, isalnum]

theorem tokens_from_zeros (k : Nat) (cur : List Nat) :
    tokens_from (List.replicate k 0) cur = tokens_from [] (cur ++ List.replicate k 0) := by
  induction k generalizing cur with
  | zero => simp
  | succ k ih =>
    rw [List.replicate_succ]
    have h0 : isspace 0 = false := by decide
    simp [tokens_from, h0, ih]

theorem norm_from_zeros (k : Nat) (cur : List Nat) :
    norm_from (List.replicate k 0) cur = norm_from [] cur := by
  unfold norm_from
  rw [tokens_from_zeros]
  by_cases hc : cur = []
  · subst hc
    by_cases hk : List.replicate k 0 = []
    · simp [tokens_from, hk]
    · simp [tokens_from, hk, clean_word_zeros]
  · simp [tokens_from, hc, clean_word_append, clean_word_zeros]

theorem norm_from_cons (c : Nat) (cs cur : List Nat) :
    norm_from (c :: cs) cur =
      if isspace c = true then norm_from [] cur ++ norm_from cs [] else norm_from cs (cur ++ [c]) := by
  by_cases hs : isspace c = true
  · by_cases hc : cur = []
    · simp [norm_from, tokens_from, hs, hc]
    · simp only [norm_from, tokens_from, hs, hc, if_true, if_false, List.map_cons, List.map_nil]
      rw [← List.filter_append]
      rfl
  · simp [norm_from, tokens_from, hs]

theorem norm_from_append_zeros (a : List Nat) (k : Nat) (cur : List Nat) :
    norm_from (a ++ List.replicate k 0) cur = norm_from a cur := by
  induction a generalizing cur with
  | nil => simpa using norm_from_zeros k cur
  | cons c cs ih => rw [List.cons_append, norm_from_cons, norm_from_cons, ih, ih]

theorem norm_tokens_append_space (a r : List Nat) :
    norm_tokens (a ++ 32 :: r) = norm_tokens a ++ norm_tokens r := by
  simp [norm_tokens, tokens, tokens_from_append_space a r 32 isspace_32]

theorem norm_tokens_append_zeros (a : List Nat) (k : Nat) :
    norm_tokens (a ++ List.replicate k 0) = norm_tokens a :=
  norm_from_append_zeros a k []

theorem norm_tokens_nil : norm_tokens [] = [] := rfl


/-! ### Word sets -/

theorem nodup_set_insert (words : List (List Nat)) (w : List Nat) (h : words.Nodup) :
    (set_insert words w).Nodup := by
  unfold set_insert
  split
  · exact h
  · exact List.nodup_cons.mpr ⟨by assumption, h⟩

theorem mem_set_insert (words : List (List Nat)) (w x : List Nat) :
    x ∈ set_insert words w ↔ x = w ∨ x ∈ words := by
  unfold set_insert
  split
  · constructor
    · exact Or.inr
    · rintro (h | h)
      · exact h ▸ (by assumption)
      · exact h
  · simp

theorem nodup_foldl_insert_cleaned (ts : List (List Nat)) (acc : List (List Nat))
    (h : acc.Nodup) : (ts.foldl insert_cleaned acc).Nodup := by
  induction ts generalizing acc with
  | nil => simpa using h
  | cons t ts ih =>
    simp only [List.foldl_cons]
    apply ih
    unfold insert_cleaned
    split
    · exact h
    · exact nodup_set_insert _ _ h

theorem mem_foldl_insert_cleaned (ts : List (List Nat)) (acc : List (List Nat)) (w : List Nat) :
    w ∈ ts.foldl insert_cleaned acc ↔ w ∈ acc ∨ (w ≠ [] ∧ ∃ t ∈ ts, clean_word t = w) := by
  induction ts generalizing acc with
  | nil => simp
  | cons t ts ih =>
    simp only [List.foldl_cons, ih, insert_cleaned]
    by_cases ht : clean_word t = []
    · simp only [ht, if_true, List.mem_cons, exists_eq_or_imp]
      constructor
      · rintro (h | ⟨h1, h2⟩)
        · exact Or.inl h
        · exact Or.inr ⟨h1, Or.inr h2⟩
      · rintro (h | ⟨h1, h2 | h2⟩)
        · exact Or.inl h
        · exact absurd h2.symm h1
        · exact Or.inr ⟨h1, h2⟩
    · simp only [ht, if_false, mem_set_insert, List.mem_cons, exists_eq_or_imp]
      constructor
      · rintro ((h | h) | ⟨h1, h2⟩)
        · exact Or.inr ⟨h ▸ ht, Or.inl h.symm⟩
        · exact Or.inl h
        · exact Or.inr ⟨h1, Or.inr h2⟩
      · rintro (h | ⟨h1, h2 | h2⟩)
        · exact Or.inl (Or.inr h)
        · exact Or.inl (Or.inl h2.symm)
        · exact Or.inr ⟨h1, h2⟩

theorem mem_norm_tokens (chunk w : List Nat) :
    w ∈ norm_tokens chunk ↔ w ≠ [] ∧ ∃ t ∈ tokens chunk, clean_word t = w := by
  simp [norm_tokens, List.mem_filter, and_comm]

theorem nodup_extract_unique_words (chunk : List Nat) : (extract_unique_words chunk).Nodup :=
  nodup_foldl_insert_cleaned _ _ List.nodup_nil

theorem mem_extract_unique_words (chunk w : List Nat) :
    w ∈ extract_unique_words chunk ↔ w ∈ norm_tokens chunk := by
  simp [extract_unique_words, mem_foldl_insert_cleaned, mem_norm_tokens]

theorem nodup_insert_range (words_ local_set : List (List Nat)) (h : words_.Nodup) :
    (insert_range words_ local_set).Nodup := by
  unfold insert_range
  induction local_set generalizing words_ with
  | nil => simpa using h
  | cons w ws ih => exact ih _ (nodup_set_insert _ _ h)

theorem mem_insert_range (words_ local_set : List (List Nat)) (w : List Nat) :
    w ∈ insert_range words_ local_set ↔ w ∈ words_ ∨ w ∈ local_set := by
  unfold insert_range
  induction local_set generalizing words_ with
  | nil => simp
  | cons x xs ih =>
    simp only [List.foldl_cons, ih, mem_set_insert, List.mem_cons]
    tauto

theorem nodup_foldl_insert_range (sets : List (List (List Nat))) (acc : List (List Nat))
    (h : acc.Nodup) : (sets.foldl insert_range acc).Nodup := by
  induction sets generalizing acc with
  | nil => simpa using h
  | cons s ss ih => exact ih _ (nodup_insert_range _ _ h)

theorem mem_foldl_insert_range (sets : List (List (List Nat))) (acc : List (List Nat))
    (w : List Nat) : w ∈ sets.foldl insert_range acc ↔ w ∈ acc ∨ ∃ s ∈ sets, w ∈ s := by
  induction sets generalizing acc with
  | nil => simp
  | cons s ss ih =>
    simp only [List.foldl_cons, ih, mem_insert_range, List.mem_cons, exists_eq_or_imp]
    tauto

theorem nodup_merge (sets : List (List (List Nat))) : (merge sets).Nodup :=
  nodup_foldl_insert_range _ _ List.nodup_nil

theorem mem_merge (sets : List (List (List Nat))) (w : List Nat) :
    w ∈ merge sets ↔ ∃ s ∈ sets, w ∈ s := by
  simp [merge, mem_foldl_insert_range]


/-! ### The stream operations -/

theorem good_eta (file : IfStream) (h : file.good = true) :
    file = ⟨file.rest, file.pos, false, false⟩ := by
  cases file with
  | mk rest pos e f =>
    cases e <;> cases f <;> simp_all [IfStream.good]

theorem adjust_boundary_loop_good (rest : List Nat) :
    ∀ (fuel pos : Nat) (buffer : List Nat), rest.length < fuel →
      (∃ ext tl, 32 ∉ ext ∧ rest = ext ++ 32 :: tl ∧
          adjust_boundary_loop fuel ⟨rest, pos, false, false⟩ buffer =
            (⟨tl, pos + ext.length + 1, false, false⟩, buffer ++ ext)) ∨
        (32 ∉ rest ∧
          adjust_boundary_loop fuel ⟨rest, pos, false, false⟩ buffer =
            (⟨[], pos + rest.length, true, true⟩, buffer ++ rest)) := by
  induction rest with
  | nil =>
    intro fuel pos buffer hf
    obtain ⟨f, rfl⟩ : ∃ f, fuel = f + 1 := ⟨fuel - 1, by simp at hf; omega⟩
    right
    simp [adjust_boundary_loop, get, IfStream.good]
  | cons c cs ih =>
    intro fuel pos buffer hf
    obtain ⟨f, rfl⟩ : ∃ f, fuel = f + 1 := ⟨fuel - 1, by simp at hf; omega⟩
    have hf1 : cs.length < f := by simp at hf; omega
    by_cases hc : c = 32
    · left
      refine ⟨[], cs, by simp, by simp [hc], ?_⟩
      simp [adjust_boundary_loop, get, IfStream.good, hc]
    · rcases ih f (pos + 1) (buffer ++ [c]) hf1 with ⟨ext, tl, h1, h2, h3⟩ | ⟨h1, h3⟩
      · left
        refine ⟨c :: ext, tl, ?_, by simp [h2], ?_⟩
        · simp only [List.mem_cons, not_or]
          exact ⟨fun h => hc h.symm, h1⟩
        · simp only [adjust_boundary_loop, get, IfStream.good, Bool.not_false, Bool.and_self,
            if_true, ne_eq, hc, not_false_eq_true, h3]
          simp only [List.append_assoc, List.singleton_append, List.length_cons, Prod.mk.injEq,
            IfStream.mk.injEq, and_true, true_and]
          omega
      · right
        refine ⟨?_, ?_⟩
        · simp only [List.mem_cons, not_or]
          exact ⟨fun h => hc h.symm, h1⟩
        · simp only [adjust_boundary_loop, get, IfStream.good, Bool.not_false, Bool.and_self,
            if_true, ne_eq, hc, not_false_eq_true, h3]
          simp only [List.append_assoc, List.singleton_append, List.length_cons, Prod.mk.injEq,
            IfStream.mk.injEq, and_true, true_and]
          omega

theorem adjust_boundary_not_good (file : IfStream) (buffer : List Nat) (h : file.good = false) :
    adjust_boundary file buffer = ({ file with failbit := true }, buffer) := by
  simp [adjust_boundary, adjust_boundary_loop, get, h]


theorem adjust_boundary_good (rest : List Nat) (pos : Nat) (buffer : List Nat) :
    (∃ ext tl, 32 ∉ ext ∧ rest = ext ++ 32 :: tl ∧
        adjust_boundary ⟨rest, pos, false, false⟩ buffer =
          (⟨tl, pos + ext.length + 1, false, false⟩, buffer ++ ext)) ∨
      (32 ∉ rest ∧
        adjust_boundary ⟨rest, pos, false, false⟩ buffer =
          (⟨[], pos + rest.length, true, true⟩, buffer ++ rest)) :=
  adjust_boundary_loop_good rest (rest.length + 1) pos buffer (Nat.lt_succ_self _)

/-- The model of `adjust_boundary` satisfies the equation of the source loop
`while (file.get(c) && c != 32) buffer += c`: its iteration bound is never
what ends it. -/
theorem adjust_boundary_unfold (file : IfStream) (buffer : List Nat) :
    adjust_boundary file buffer =
      match get file with
      | (file1, some c) =>
        if c ≠ 32 then adjust_boundary file1 (buffer ++ [c]) else (file1, buffer)
      | (file1, none) => (file1, buffer) := by
  obtain ⟨rest, pos, e, f⟩ := file
  cases rest with
  | nil => cases e <;> cases f <;> rfl
  | cons c cs => cases e <;> cases f <;> rfl

/-- What a locked read of a non-final worker does, on a stream whose flags
are only set at end-of-stream: either it stops at a space, which it discards,
or it leaves the stream failed at end-of-stream, its buffer holding the rest
of the file followed by `k` filler bytes of the `resize`. -/
theorem read_chunk_not_last (file : IfStream) (n : Nat)
    (hinv : file.good = false → file.rest = []) :
    (∃ ext tl, file.good = true ∧ n ≤ file.rest.length ∧ 32 ∉ ext ∧
        file.rest.drop n = ext ++ 32 :: tl ∧
        read_chunk file n false =
          (⟨tl, file.pos + n + ext.length + 1, false, false⟩, file.rest.take n ++ ext)) ∨
      (∃ k st, read_chunk file n false = (st, file.rest ++ List.replicate k 0) ∧
        st.good = false ∧ st.rest = [] ∧ st.pos = file.pos + file.rest.length) := by
  by_cases hg : file.good = true
  · obtain ⟨rest, pos, e, f⟩ := file
    obtain ⟨rfl, rfl⟩ : e = false ∧ f = false := by simpa [IfStream.good] using hg
    simp only at *
    by_cases hlen : rest.length < n
    · right
      refine ⟨n - rest.length, ⟨[], pos + rest.length, true, true⟩, ?_, rfl, rfl, rfl⟩
      have h1 : rest.take n = rest := List.take_of_length_le (Nat.le_of_lt hlen)
      have h2 : rest.drop n = [] := List.drop_of_length_le (Nat.le_of_lt hlen)
      simp only [read_chunk, read, IfStream.good, Bool.not_false, Bool.and_self, if_true, h1, h2,
        hlen, Bool.false_eq_true, if_false]
      rw [adjust_boundary_not_good _ _ (by simp [IfStream.good]), List.drop_replicate]
    · have hn : n ≤ rest.length := Nat.le_of_not_lt hlen
      have h1 : (rest.take n).length = n := by simp [hn]
      have h3 : ¬ (rest.take n).length < n := by omega
      have hread : read_chunk ⟨rest, pos, false, false⟩ n false =
          adjust_boundary ⟨rest.drop n, pos + n, false, false⟩ (rest.take n) := by
        simp only [read_chunk, read, IfStream.good, Bool.not_false, Bool.and_self, if_true, h3,
          Bool.false_eq_true, if_false, h1, List.drop_replicate, Nat.sub_self,
          List.replicate_zero, List.append_nil, lt_self_iff_false]
      rcases adjust_boundary_good (rest.drop n) (pos + n) (rest.take n) with
        ⟨ext, tl, e1, e2, e3⟩ | ⟨e1, e3⟩
      · left
        exact ⟨ext, tl, rfl, hn, e1, e2, by rw [hread, e3]⟩
      · right
        refine ⟨0, ⟨[], pos + n + (rest.drop n).length, true, true⟩, ?_, rfl, rfl, ?_⟩
        · rw [hread, e3]
          simp
        · simp only [List.length_drop]
          omega
  · have hg2 : file.good = false := by simpa using hg
    right
    have hr := hinv hg2
    refine ⟨n, { file with failbit := true }, ?_, ?_, hr, by simp [hr]⟩
    · simp only [read_chunk, read, hg2, Bool.false_eq_true, if_false, List.length_nil,
        List.drop_zero, List.nil_append, hr]
      rw [adjust_boundary_not_good _ _ (by simp [IfStream.good])]
    · simp [IfStream.good]

theorem read_chunk_last (file : IfStream) (n : Nat) :
    read_chunk file n true =
      ({ file with rest := [], pos := file.pos + file.rest.length }, file.rest) := by
  simp [read_chunk]


/-! ### One locked read -/

/-- The bytes a locked read takes off the stream: they are what the buffer
holds plus the discarded space, or what the buffer holds before its filler. -/
theorem read_chunk_consumed (file : IfStream) (n : Nat) (b : Bool)
    (hinv : file.good = false → file.rest = []) :
    ∃ consumed, file.rest = consumed ++ (read_chunk file n b).1.rest ∧
      (read_chunk file n b).1.pos = file.pos + consumed.length ∧
      (consumed = (read_chunk file n b).2 ++ [32] ∨
        ∃ k, (read_chunk file n b).2 = consumed ++ List.replicate k 0) := by
  cases b with
  | true =>
    rw [read_chunk_last]
    exact ⟨file.rest, by simp, rfl, Or.inr ⟨0, by simp⟩⟩
  | false =>
    rcases read_chunk_not_last file n hinv with ⟨ext, tl, _, _, _, h4, h5⟩ | ⟨k, st, h1, _, h3, h4⟩
    · rw [h5]
      refine ⟨file.rest.take n ++ ext ++ [32], ?_, ?_, Or.inl rfl⟩
      · calc file.rest = file.rest.take n ++ file.rest.drop n := (List.take_append_drop n _).symm
          _ = file.rest.take n ++ (ext ++ 32 :: tl) := by rw [h4]
          _ = file.rest.take n ++ ext ++ [32] ++ tl := by simp
      · simp only [List.length_append, List.length_take, List.length_singleton]
        omega
    · rw [h1]
      exact ⟨file.rest, by simp [h3], h4, Or.inr ⟨k, rfl⟩⟩

theorem read_chunk_inv (file : IfStream) (n : Nat) (b : Bool)
    (hinv : file.good = false → file.rest = []) :
    (read_chunk file n b).1.good = false → (read_chunk file n b).1.rest = [] := by
  cases b with
  | true => intro _; rw [read_chunk_last]
  | false =>
    rcases read_chunk_not_last file n hinv with ⟨ext, tl, _, _, _, _, h5⟩ | ⟨k, st, h1, _, h3, _⟩
    · rw [h5]
      intro h
      simp [IfStream.good] at h
    · rw [h1]
      exact fun _ => h3

theorem read_chunk_rest_nil (file : IfStream) (n : Nat) (b : Bool)
    (hinv : file.good = false → file.rest = []) (h : file.rest = []) :
    (read_chunk file n b).1.rest = [] := by
  obtain ⟨consumed, h1, _, _⟩ := read_chunk_consumed file n b hinv
  rw [h] at h1
  exact (List.append_eq_nil.mp h1.symm).2

/-- Tokenising the buffer of a locked read and then what is left of the stream
gives the tokens of what was in the stream before the read. -/
theorem read_chunk_norm_tokens (file : IfStream) (n : Nat) (b : Bool)
    (hinv : file.good = false → file.rest = []) :
    norm_tokens (read_chunk file n b).2 ++ norm_tokens (read_chunk file n b).1.rest =
      norm_tokens file.rest := by
  cases b with
  | true => rw [read_chunk_last]; simp [norm_tokens_nil]
  | false =>
    rcases read_chunk_not_last file n hinv with ⟨ext, tl, _, _, _, h4, h5⟩ | ⟨k, st, h1, _, h3, _⟩
    · rw [h5]
      simp only
      rw [← norm_tokens_append_space, List.append_assoc, ← h4, List.take_append_drop]
    · rw [h1]
      simp only
      rw [h3, norm_tokens_nil, List.append_nil, norm_tokens_append_zeros]


/-! ### A sequence of locked reads -/

theorem locked_reads_length (N cs : Nat) (order : List Nat) (file : IfStream) :
    (locked_reads N cs order file).length = order.length := by
  induction order generalizing file with
  | nil => rfl
  | cons i order ih => simp [locked_reads, ih]

theorem locked_reads_workers (N cs : Nat) (order : List Nat) (file : IfStream) :
    (locked_reads N cs order file).map ChunkRead.worker = order := by
  induction order generalizing file with
  | nil => rfl
  | cons i order ih => simp [locked_reads, ih]

theorem end_state_inv (N cs : Nat) (order : List Nat) (file : IfStream)
    (hinv : file.good = false → file.rest = []) :
    (end_state N cs order file).good = false → (end_state N cs order file).rest = [] := by
  induction order generalizing file with
  | nil => exact hinv
  | cons i order ih => exact ih _ (read_chunk_inv file cs _ hinv)

theorem end_state_rest_nil (N cs : Nat) (order : List Nat) (file : IfStream)
    (hinv : file.good = false → file.rest = []) (h : file.rest = []) :
    (end_state N cs order file).rest = [] := by
  induction order generalizing file with
  | nil => exact h
  | cons i order ih =>
    exact ih _ (read_chunk_inv file cs _ hinv) (read_chunk_rest_nil file cs _ hinv h)

/-- Once the final worker has read, nothing is left in the stream. -/
theorem end_state_of_mem_last (N cs : Nat) (order : List Nat) (file : IfStream)
    (hinv : file.good = false → file.rest = []) (h : N - 1 ∈ order) :
    (end_state N cs order file).rest = [] := by
  induction order generalizing file with
  | nil => simp at h
  | cons i order ih =>
    by_cases hi : i = N - 1
    · subst hi
      simp only [end_state, beq_self_eq_true]
      exact end_state_rest_nil N cs order _ (read_chunk_inv file cs true hinv)
        (by rw [read_chunk_last])
    · have hmem : N - 1 ∈ order := by
        rcases List.mem_cons.mp h with h | h
        · exact absurd h.symm hi
        · exact h
      exact ih _ (read_chunk_inv file cs _ hinv) hmem

/-- The chunk buffers, tokenised one after the other, followed by the tokens
of what is left in the stream, give the tokens of the stream. -/
theorem locked_reads_norm_tokens (N cs : Nat) (order : List Nat) (file : IfStream)
    (hinv : file.good = false → file.rest = []) :
    ((locked_reads N cs order file).map (fun r => norm_tokens r.buffer)).flatten ++
        norm_tokens (end_state N cs order file).rest =
      norm_tokens file.rest := by
  induction order generalizing file with
  | nil => simp [locked_reads, end_state]
  | cons i order ih =>
    simp only [locked_reads, end_state, List.map_cons, List.flatten_cons, List.append_assoc]
    rw [ih _ (read_chunk_inv file cs _ hinv), read_chunk_norm_tokens file cs _ hinv]

/-! ### Futures and the merge -/

theorem mem_future_get (i : Nat) (reads : List ChunkRead) (w : List Nat)
    (h : w ∈ future_get i reads) :
    ∃ r ∈ reads, r.worker = i ∧ w ∈ extract_unique_words r.buffer := by
  induction reads with
  | nil => simp [future_get] at h
  | cons r rs ih =>
    by_cases hr : r.worker = i
    · simp only [future_get, hr, if_true] at h
      exact ⟨r, List.mem_cons_self _ _, hr, h⟩
    · simp only [future_get, hr, if_false] at h
      obtain ⟨r2, h1, h2, h3⟩ := ih h
      exact ⟨r2, List.mem_cons_of_mem _ h1, h2, h3⟩

theorem future_get_of_mem (reads : List ChunkRead) (r : ChunkRead)
    (hnd : (reads.map ChunkRead.worker).Nodup) (hr : r ∈ reads) :
    future_get r.worker reads = extract_unique_words r.buffer := by
  induction reads with
  | nil => simp at hr
  | cons r0 rs ih =>
    rw [List.map_cons, List.nodup_cons] at hnd
    rcases List.mem_cons.mp hr with h | h
    · subst h
      simp [future_get]
    · have hne : r0.worker ≠ r.worker := by
        intro he
        exact hnd.1 (he ▸ List.mem_map_of_mem _ h)
      simp only [future_get, hne, if_false]
      exact ih hnd.2 h

/-- The merged vocabulary holds exactly the normalised tokens of the file,
whatever the order in which the workers read. -/
theorem mem_words_iff (order : List Nat) (N : Nat) (content : List Nat) (hN : 0 < N)
    (hperm : order.Perm (List.range N)) (w : List Nat) :
    w ∈ merge ((List.range N).map (fun i =>
        future_get i (locked_reads N (chunk_size content.length N) order (open_file content)))) ↔
      w ∈ norm_tokens content := by
  have hinv : (open_file content).good = false → (open_file content).rest = [] := by
    intro h
    simp [open_file, IfStream.good] at h
  have hlast : N - 1 ∈ order := hperm.mem_iff.mpr (List.mem_range.mpr (by omega))
  have hnd : ((locked_reads N (chunk_size content.length N) order (open_file content)).map
      ChunkRead.worker).Nodup := by
    rw [locked_reads_workers]
    exact hperm.nodup_iff.mpr (List.nodup_range N)
  have htok := locked_reads_norm_tokens N (chunk_size content.length N) order (open_file content) hinv
  rw [end_state_of_mem_last N _ order _ hinv hlast, norm_tokens_nil, List.append_nil] at htok
  have hrest : (open_file content).rest = content := rfl
  rw [hrest] at htok
  rw [← htok, mem_merge]
  simp only [List.mem_map, List.mem_range, List.mem_flatten, exists_exists_and_eq_and]
  constructor
  · rintro ⟨i, _, hw⟩
    obtain ⟨r, hr1, _, hr3⟩ := mem_future_get i _ w hw
    exact ⟨r, hr1, (mem_extract_unique_words _ _).mp hr3⟩
  · rintro ⟨r, hr1, hr2⟩
    have hwk : r.worker ∈ order := by
      rw [← locked_reads_workers N (chunk_size content.length N) order (open_file content)]
      exact List.mem_map_of_mem _ hr1
    refine ⟨r.worker, List.mem_range.mp (hperm.mem_iff.mp hwk), ?_⟩
    rw [future_get_of_mem _ r hnd hr1]
    exact (mem_extract_unique_words _ _).mpr hr2

/-- The reported count is the number of distinct normalised tokens of the
file, whatever the order in which the workers read. -/
theorem reported_count_eq (order : List Nat) (N : Nat) (content : List Nat) (hN : 0 < N)
    (hperm : order.Perm (List.range N)) :
    reported_count order N (some content) = Except.ok (norm_tokens content).dedup.length := by
  have hp : (merge ((List.range N).map (fun i =>
      future_get i (locked_reads N (chunk_size content.length N) order
        (open_file content))))).Perm (norm_tokens content).dedup := by
    rw [List.perm_ext_iff_of_nodup (nodup_merge _) (List.nodup_dedup _)]
    intro w
    rw [mem_words_iff order N content hN hperm, List.mem_dedup]
  simp only [reported_count, process_file_ordered, Except.map, print_result, hp.length_eq]


theorem tokens_from_whitespace (content : List Nat) (h : ∀ c ∈ content, isspace c = true) :
    tokens_from content [] = [] := by
  induction content with
  | nil => rfl
  | cons c cs ih =>
    have hc : isspace c = true := h c (List.mem_cons_self _ _)
    have hcs : ∀ x ∈ cs, isspace x = true := fun x hx => h x (List.mem_cons_of_mem _ hx)
    simp [tokens_from, hc, ih hcs]

theorem process_file_eq (N : Nat) (file : Option (List Nat)) :
    (process_file N file).map print_result = reported_count (List.range N) N file := rfl

/-! ### Offsets of the locked reads -/

theorem read_chunk_range (content : List Nat) (file : IfStream) (n : Nat) (b : Bool)
    (hinv : file.good = false → file.rest = [])
    (hdrop : content.drop file.pos = file.rest)
    (hlen : file.pos + file.rest.length = content.length) :
    file.pos ≤ (read_chunk file n b).1.pos ∧
      content.drop (read_chunk file n b).1.pos = (read_chunk file n b).1.rest ∧
      (read_chunk file n b).1.pos + (read_chunk file n b).1.rest.length = content.length ∧
      file.rest =
        byte_range content file.pos (read_chunk file n b).1.pos ++ (read_chunk file n b).1.rest ∧
      (byte_range content file.pos (read_chunk file n b).1.pos = (read_chunk file n b).2 ++ [32] ∨
        ∃ k, (read_chunk file n b).2 =
          byte_range content file.pos (read_chunk file n b).1.pos ++ List.replicate k 0) := by
  obtain ⟨consumed, h1, h2, h3⟩ := read_chunk_consumed file n b hinv
  have hrange : byte_range content file.pos (read_chunk file n b).1.pos = consumed := by
    unfold byte_range
    rw [hdrop, h2, Nat.add_sub_cancel_left]
    conv_lhs => rw [h1]
    simp
  refine ⟨by omega, ?_, ?_, ?_, ?_⟩
  · rw [h2, ← List.drop_drop, hdrop]
    conv_lhs => rw [h1]
    simp
  · have := congrArg List.length h1
    simp only [List.length_append] at this
    omega
  · rw [hrange]
    exact h1
  · rw [hrange]
    exact h3

theorem locked_reads_ranges (content : List Nat) (N cs : Nat) (order : List Nat)
    (file : IfStream) (hinv : file.good = false → file.rest = [])
    (hdrop : content.drop file.pos = file.rest)
    (hlen : file.pos + file.rest.length = content.length) :
    (∀ r ∈ locked_reads N cs order file,
        r.before.pos ≤ r.after.pos ∧ r.after.pos ≤ content.length ∧
          (byte_range content r.before.pos r.after.pos = r.buffer ++ [32] ∨
            ∃ k, r.buffer = byte_range content r.before.pos r.after.pos ++ List.replicate k 0)) ∧
      ((locked_reads N cs order file).map
            (fun r => byte_range content r.before.pos r.after.pos)).flatten ++
          (end_state N cs order file).rest = file.rest ∧
      (end_state N cs order file).pos + (end_state N cs order file).rest.length =
        content.length := by
  induction order generalizing file with
  | nil => simp [locked_reads, end_state, hlen]
  | cons i order ih =>
    obtain ⟨h1, h2, h3, h4, h5⟩ :=
      read_chunk_range content file cs (i == N - 1) hinv hdrop hlen
    obtain ⟨ih1, ih2, ih3⟩ := ih _ (read_chunk_inv file cs _ hinv) h2 h3
    refine ⟨?_, ?_, ih3⟩
    · intro r hr
      simp only [locked_reads, List.mem_cons] at hr
      rcases hr with hr | hr
      · subst hr
        exact ⟨h1, Nat.le.intro h3, h5⟩
      · exact ih1 r hr
    · simp only [locked_reads, end_state, List.map_cons, List.flatten_cons, List.append_assoc]
      rw [ih2]
      exact h4.symm

theorem locked_reads_chain (N cs : Nat) (order : List Nat) (file : IfStream) :
    List.Chain' (fun a b : ChunkRead => b.before = a.after) (locked_reads N cs order file) ∧
      ∀ r ∈ (locked_reads N cs order file).head?, r.before = file := by
  induction order generalizing file with
  | nil => simp [locked_reads]
  | cons i order ih =>
    obtain ⟨ih1, ih2⟩ := ih (read_chunk file cs (i == N - 1)).1
    refine ⟨?_, ?_⟩
    · simp only [locked_reads]
      rw [List.chain'_cons']
      exact ⟨ih2, ih1⟩
    · simp [locked_reads]

theorem locked_reads_getLast (N cs : Nat) (order : List Nat) (file : IfStream) (r : ChunkRead)
    (h : (locked_reads N cs order file).getLast? = some r) :
    r.after = end_state N cs order file := by
  induction order generalizing file with
  | nil => simp [locked_reads] at h
  | cons i order ih =>
    cases order with
    | nil =>
      simp only [locked_reads, List.getLast?_singleton, Option.some.injEq] at h
      subst h
      rfl
    | cons j order =>
      simp only [locked_reads, List.getLast?_cons_cons] at h
      exact ih _ h

/-! ### Union of word sets -/

theorem mem_foldr_union (sets : List (List (List Nat))) (w : List Nat) :
    w ∈ (sets.map List.toFinset).foldr (fun a b => a ∪ b) ∅ ↔ ∃ s ∈ sets, w ∈ s := by
  induction sets with
  | nil => simp
  | cons s ss ih => simp [ih]

/-! ### Joining the buffers again -/

theorem rejoin_append_singleton (sep : Nat) (bs : List (List Nat)) (x : List Nat) :
    rejoin sep (bs ++ [x]) = (bs.map (fun b => b ++ [sep])).flatten ++ x := by
  induction bs with
  | nil => simp [rejoin]
  | cons b bs ih =>
    cases bs with
    | nil => simp [rejoin]
    | cons b2 bs =>
      have hstep : rejoin sep ((b :: b2 :: bs) ++ [x]) =
          b ++ sep :: rejoin sep ((b2 :: bs) ++ [x]) := rfl
      rw [hstep, ih]
      simp

theorem locked_reads_append (N cs : Nat) (o1 o2 : List Nat) (file : IfStream) :
    locked_reads N cs (o1 ++ o2) file =
      locked_reads N cs o1 file ++ locked_reads N cs o2 (end_state N cs o1 file) := by
  induction o1 generalizing file with
  | nil => rfl
  | cons i o1 ih => simp [locked_reads, end_state, ih]

/-- While every read stops at a space, each buffer followed by a space, then
what is left in the stream, is what the stream held. -/
theorem locked_reads_rejoin (N cs : Nat) (order : List Nat) (file : IfStream)
    (hinv : file.good = false → file.rest = [])
    (hnf : ∀ i ∈ order, i ≠ N - 1)
    (hgood : ∀ r ∈ locked_reads N cs order file, r.after.good = true) :
    ((locked_reads N cs order file).map (fun r => r.buffer ++ [32])).flatten ++
        (end_state N cs order file).rest = file.rest := by
  induction order generalizing file with
  | nil => simp [locked_reads, end_state]
  | cons i order ih =>
    have hi : (i == N - 1) = false := by
      simpa using hnf i (List.mem_cons_self _ _)
    have hhead := hgood _ (List.mem_cons_self _ _)
    have htail : ∀ r ∈ locked_reads N cs order (read_chunk file cs (i == N - 1)).1,
        r.after.good = true := fun r hr => hgood r (List.mem_cons_of_mem _ hr)
    have hrec := ih _ (read_chunk_inv file cs _ hinv)
      (fun j hj => hnf j (List.mem_cons_of_mem _ hj)) htail
    simp only [locked_reads, end_state, List.map_cons, List.flatten_cons, List.append_assoc]
    rw [hrec]
    simp only at hhead
    rw [hi] at hhead ⊢
    rcases read_chunk_not_last file cs hinv with ⟨ext, tl, _, _, _, h4, h5⟩ | ⟨k, st, h1, h2, _, _⟩
    · rw [h5]
      simp only [List.append_assoc, List.singleton_append]
      rw [← h4, List.take_append_drop]
    · rw [h1] at hhead
      rw [h2] at hhead
      exact absurd hhead (by decide)

/-! ### The final read and reads on an exhausted stream -/

theorem extract_unique_words_eq_nil (chunk : List Nat) (h : norm_tokens chunk = []) :
    extract_unique_words chunk = [] := by
  apply List.eq_nil_iff_forall_not_mem.mpr
  intro w hw
  rw [mem_extract_unique_words, h] at hw
  simp at hw

theorem norm_tokens_zeros (k : Nat) : norm_tokens (List.replicate k 0) = [] := by
  have h := norm_tokens_append_zeros [] k
  rw [List.nil_append] at h
  rw [h, norm_tokens_nil]

/-- On a stream that is at end-of-stream or not good, the locked read of a
non-final worker leaves nothing but the filler of the `resize` in the buffer. -/
theorem read_chunk_exhausted (file : IfStream) (n : Nat)
    (h : file.rest = [] ∨ file.good = false) :
    (read_chunk file n false).2 = List.replicate n 0 := by
  by_cases hg : file.good = true
  · have hr : file.rest = [] := by
      rcases h with h | h
      · exact h
      · rw [hg] at h
        exact absurd h (by decide)
    obtain ⟨rest, pos, e, f⟩ := file
    obtain ⟨rfl, rfl⟩ : e = false ∧ f = false := by simpa [IfStream.good] using hg
    simp only at hr
    subst hr
    cases n with
    | zero => rfl
    | succ n =>
      simp only [read_chunk, read, IfStream.good, Bool.not_false, Bool.and_self, if_true,
        List.take_nil, List.drop_nil, List.length_nil, Nat.zero_lt_succ, Bool.false_eq_true,
        if_false, List.drop_zero, List.nil_append]
      rw [adjust_boundary_not_good _ _ (by simp [IfStream.good])]
  · have hg2 : file.good = false := by simpa using hg
    simp only [read_chunk, read, hg2, Bool.false_eq_true, if_false, List.length_nil,
      List.drop_zero, List.nil_append]
    rw [adjust_boundary_not_good _ _ (by simp [IfStream.good])]

theorem locked_reads_mem (N cs : Nat) (order : List Nat) (file : IfStream) (r : ChunkRead)
    (hr : r ∈ locked_reads N cs order file) :
    r.worker ∈ order ∧ r.after = (read_chunk r.before cs (r.worker == N - 1)).1 ∧
      r.buffer = (read_chunk r.before cs (r.worker == N - 1)).2 := by
  induction order generalizing file with
  | nil => simp [locked_reads] at hr
  | cons i order ih =>
    simp only [locked_reads, List.mem_cons] at hr
    rcases hr with hr | hr
    · subst hr
      exact ⟨List.mem_cons_self _ _, rfl, rfl⟩
    · obtain ⟨h1, h2, h3⟩ := ih _ hr
      exact ⟨List.mem_cons_of_mem _ h1, h2, h3⟩

/-! ### Letter case -/

theorem isspace_swap_case (c : Nat) : isspace (swap_case c) = isspace c := by
  unfold swap_case
  split
  · rw [Bool.eq_iff_iff]
    simp only [isspace, Bool.or_eq_true, beq_iff_eq, Bool.and_eq_true, decide_eq_true_eq]
    omega
  · split
    · rw [Bool.eq_iff_iff]
      simp only [isspace, Bool.or_eq_true, beq_iff_eq, Bool.and_eq_true, decide_eq_true_eq]
      omega
    · rfl

theorem isalnum_swap_case (c : Nat) : isalnum (swap_case c) = isalnum c := by
  unfold swap_case
  split
  · rw [Bool.eq_iff_iff]
    simp only [isalnum, Bool.or_eq_true, Bool.and_eq_true, decide_eq_true_eq]
    omega
  · split
    · rw [Bool.eq_iff_iff]
      simp only [isalnum, Bool.or_eq_true, Bool.and_eq_true, decide_eq_true_eq]
      omega
    · rfl

theorem tolower_swap_case (c : Nat) : tolower (swap_case c) = tolower c := by
  unfold swap_case tolower
  split_ifs <;> omega

theorem clean_word_singleton_swap_case (c : Nat) :
    clean_word [swap_case c] = clean_word [c] := by
  simp only [clean_word, List.filter_cons, isalnum_swap_case, List.filter_nil]
  split
  · simp [tolower_swap_case]
  · rfl

theorem recase_nil (s : List Nat) : recase [] s = s := by
  cases s <;> rfl

theorem recase_length (flips : List Bool) (s : List Nat) :
    (recase flips s).length = s.length := by
  induction s generalizing flips with
  | nil => cases flips <;> rfl
  | cons c cs ih =>
    cases flips with
    | nil => rfl
    | cons b bs => simp [recase, ih]

theorem norm_from_nil (cur : List Nat) :
    norm_from [] cur = if clean_word cur = [] then [] else [clean_word cur] := by
  by_cases hc : cur = []
  · subst hc
    rfl
  · by_cases hw : clean_word cur = [] <;> simp [norm_from, tokens_from, hc, hw]

theorem norm_from_recase (s : List Nat) :
    ∀ (flips : List Bool) (cur cur2 : List Nat), clean_word cur2 = clean_word cur →
      norm_from (recase flips s) cur2 = norm_from s cur := by
  induction s with
  | nil =>
    intro flips cur cur2 h
    have : recase flips [] = [] := by cases flips <;> rfl
    rw [this, norm_from_nil, norm_from_nil, h]
  | cons c cs ih =>
    intro flips cur cur2 h
    have hstep : ∀ (d : Nat) (fl : List Bool), isspace d = isspace c →
        clean_word [d] = clean_word [c] →
        norm_from (d :: recase fl cs) cur2 = norm_from (c :: cs) cur := by
      intro d fl hs hd
      rw [norm_from_cons, norm_from_cons, hs]
      split
      · rw [norm_from_nil, norm_from_nil, h, ih fl [] [] rfl]
      · exact ih fl _ _ (by rw [clean_word_append, clean_word_append, h, hd])
    cases flips with
    | nil =>
      have h0 := hstep c [] rfl rfl
      rw [recase_nil] at h0 ⊢
      exact h0
    | cons b bs =>
      cases b with
      | false => exact hstep c bs rfl rfl
      | true => exact hstep (swap_case c) bs (isspace_swap_case c) (clean_word_singleton_swap_case c)

theorem norm_tokens_recase (flips : List Bool) (content : List Nat) :
    norm_tokens (recase flips content) = norm_tokens content :=
  norm_from_recase content flips [] [] rfl

/-! ### Tokens are the maximal runs of non-whitespace bytes -/

theorem tokens_from_run (run : List Nat) (hrun : ∀ c ∈ run, isspace c = false)
    (cur : List Nat) :
    tokens_from run cur = if cur ++ run = [] then [] else [cur ++ run] := by
  induction run generalizing cur with
  | nil => simp [tokens_from]
  | cons c cs ih =>
    have hc : isspace c = false := hrun c (List.mem_cons_self _ _)
    have hcs : ∀ x ∈ cs, isspace x = false := fun x hx => hrun x (List.mem_cons_of_mem _ hx)
    simp only [tokens_from, hc, Bool.false_eq_true, if_false]
    rw [ih hcs]
    simp

theorem mem_tokens_from (s : List Nat) :
    ∀ (cur t : List Nat), t ∈ tokens_from s cur → (∀ c ∈ cur, isspace c = false) →
      t ≠ [] ∧ (∀ c ∈ t, isspace c = false) ∧
        ((∃ run post, t = cur ++ run ∧ s = run ++ post ∧
            ∀ c ∈ post.head?, isspace c = true) ∨
          (∃ pre w post, s = pre ++ w :: (t ++ post) ∧ isspace w = true ∧
            ∀ c ∈ post.head?, isspace c = true)) := by
  induction s with
  | nil =>
    intro cur t ht hcur
    by_cases hc : cur = []
    · simp [tokens_from, hc] at ht
    · simp only [tokens_from, hc, if_false, List.mem_singleton] at ht
      subst ht
      exact ⟨hc, hcur, Or.inl ⟨[], [], by simp, rfl, by simp⟩⟩
  | cons c cs ih =>
    intro cur t ht hcur
    by_cases hs : isspace c = true
    · have hlater : t ∈ tokens_from cs [] →
          t ≠ [] ∧ (∀ x ∈ t, isspace x = false) ∧
            ((∃ run post, t = cur ++ run ∧ c :: cs = run ++ post ∧
                ∀ x ∈ post.head?, isspace x = true) ∨
              (∃ pre w post, c :: cs = pre ++ w :: (t ++ post) ∧ isspace w = true ∧
                ∀ x ∈ post.head?, isspace x = true)) := by
        intro h
        obtain ⟨h1, h2, h3⟩ := ih [] t h (by simp)
        refine ⟨h1, h2, Or.inr ?_⟩
        rcases h3 with ⟨run, post, e1, e2, e3⟩ | ⟨pre, w, post, e1, e2, e3⟩
        · rw [List.nil_append] at e1
          subst e1
          exact ⟨[], c, post, by simp [e2], hs, e3⟩
        · exact ⟨c :: pre, w, post, by simp [e1], e2, e3⟩
      by_cases hc : cur = []
      · simp only [tokens_from, hs, if_true, hc] at ht
        exact hlater ht
      · simp only [tokens_from, hs, if_true, hc, if_false, List.mem_cons] at ht
        rcases ht with ht | ht
        · subst ht
          exact ⟨hc, hcur, Or.inl ⟨[], c :: cs, by simp, rfl, by simpa using hs⟩⟩
        · exact hlater ht
    · have hs2 : isspace c = false := by simpa using hs
      simp only [tokens_from, hs2, Bool.false_eq_true, if_false] at ht
      have hcur2 : ∀ x ∈ cur ++ [c], isspace x = false := by
        intro x hx
        rcases List.mem_append.mp hx with hx | hx
        · exact hcur x hx
        · rw [List.mem_singleton.mp hx]
          exact hs2
      obtain ⟨h1, h2, h3⟩ := ih (cur ++ [c]) t ht hcur2
      refine ⟨h1, h2, ?_⟩
      rcases h3 with ⟨run, post, e1, e2, e3⟩ | ⟨pre, w, post, e1, e2, e3⟩
      · exact Or.inl ⟨c :: run, post, by simp [e1], by simp [e2], e3⟩
      · exact Or.inr ⟨c :: pre, w, post, by simp [e1], e2, e3⟩

theorem mem_tokens_of_prefix (t post : List Nat) (ht : t ≠ [])
    (hrun : ∀ c ∈ t, isspace c = false) (hpost : ∀ c ∈ post.head?, isspace c = true) :
    t ∈ tokens_from (t ++ post) [] := by
  cases post with
  | nil =>
    rw [List.append_nil, tokens_from_run t hrun]
    simp [ht]
  | cons w post =>
    have hw : isspace w = true := hpost w (by simp)
    rw [tokens_from_append_space t post w hw, tokens_from_run t hrun]
    simp [ht]

theorem mem_tokens_iff (buffer t : List Nat) : t ∈ tokens buffer ↔ maximal_run buffer t := by
  constructor
  · intro h
    obtain ⟨h1, h2, h3⟩ := mem_tokens_from buffer [] t h (by simp)
    refine ⟨h1, h2, ?_⟩
    rcases h3 with ⟨run, post, e1, e2, e3⟩ | ⟨pre, w, post, e1, e2, e3⟩
    · rw [List.nil_append] at e1
      subst e1
      exact ⟨[], post, by simp [e2], by simp, e3⟩
    · refine ⟨pre ++ [w], post, by simp [e1], ?_, e3⟩
      intro c hc
      have hlast : (pre ++ [w]).getLast? = some w := by simp
      rw [hlast] at hc
      rw [← Option.some.inj hc]
      exact e2
  · rintro ⟨h1, h2, pre, post, e1, e2, e3⟩
    have hmem := mem_tokens_of_prefix t post h1 h2 e3
    rcases List.eq_nil_or_concat pre with hp | ⟨pre0, w, hp⟩
    · subst hp
      rw [e1]
      simpa [tokens] using hmem
    · subst hp
      have hw : isspace w = true := e2 w (by simp)
      have hbuf : buffer = pre0 ++ w :: (t ++ post) := by simp [e1]
      rw [hbuf]
      unfold tokens
      rw [tokens_from_append_space pre0 (t ++ post) w hw]
      exact List.mem_append_right _ hmem

/-! ### The launch loop -/

theorem takeWhile_ne_space (ext tl : List Nat) (h : 32 ∉ ext) :
    (ext ++ 32 :: tl).takeWhile (fun c => decide (c ≠ 32)) = ext := by
  induction ext with
  | nil => simp
  | cons c cs ih =>
    have hc : c ≠ 32 := fun e => h (e ▸ List.mem_cons_self _ _)
    have hcs : 32 ∉ cs := fun e => h (List.mem_cons_of_mem _ e)
    rw [List.cons_append, List.takeWhile_cons_of_pos (by simpa using hc), ih hcs]

theorem takeWhile_no_space (l : List Nat) (h : 32 ∉ l) :
    l.takeWhile (fun c => decide (c ≠ 32)) = l := by
  induction l with
  | nil => rfl
  | cons c cs ih =>
    have hc : c ≠ 32 := fun e => h (e ▸ List.mem_cons_self _ _)
    have hcs : 32 ∉ cs := fun e => h (List.mem_cons_of_mem _ e)
    rw [List.takeWhile_cons_of_pos (by simpa using hc), ih hcs]

/-- On a good stream holding at least `n` bytes the nominal read is complete
and the extension starts right after it. -/
theorem read_chunk_full (rest : List Nat) (pos n : Nat) (hn : n ≤ rest.length) :
    read_chunk ⟨rest, pos, false, false⟩ n false =
      adjust_boundary ⟨rest.drop n, pos + n, false, false⟩ (rest.take n) := by
  have h1 : (rest.take n).length = n := by simp [hn]
  have h3 : ¬ (rest.take n).length < n := by omega
  simp only [read_chunk, read, IfStream.good, Bool.not_false, Bool.and_self, if_true, h3,
    Bool.false_eq_true, if_false, h1, List.drop_replicate, Nat.sub_self,
    List.replicate_zero, List.append_nil, lt_self_iff_false]

/-! ### The join loop with failing workers -/

theorem join_futures_error (futures : List (Except String (List (List Nat))))
    (words_ : List (List Nat)) (h : ∃ e, Except.error e ∈ futures) :
    ∃ e, join_futures futures words_ = Except.error e := by
  induction futures generalizing words_ with
  | nil =>
    obtain ⟨e, he⟩ := h
    simp at he
  | cons f fs ih =>
    cases f with
    | error e0 => exact ⟨e0, rfl⟩
    | ok local_set =>
      obtain ⟨e, he⟩ := h
      rcases List.mem_cons.mp he with h1 | h1
      · exact absurd h1 (by simp)
      · exact ih _ ⟨e, h1⟩

theorem join_futures_ok (sets : List (List (List Nat))) (words_ : List (List Nat)) :
    join_futures (sets.map Except.ok) words_ = Except.ok (sets.foldl insert_range words_) := by
  induction sets generalizing words_ with
  | nil => rfl
  | cons s ss ih => simp [join_futures, ih]

/-- Without failures the model with faults is the model without. -/
theorem process_file_faulty_none (order : List Nat) (N : Nat) (file : Option (List Nat)) :
    process_file_faulty (fun _ => none) order N file = process_file_ordered order N file := by
  cases file with
  | none => rfl
  | some content =>
    simp only [process_file_faulty, process_file_ordered, merge]
    rw [← join_futures_ok, List.map_map]
    rfl

theorem process_file_faulty_error (fault : Nat → Option String) (order : List Nat) (N : Nat)
    (file : Option (List Nat)) (h : ∃ i, i < N ∧ fault i ≠ none) :
    ∃ e, process_file_faulty fault order N file = Except.error e := by
  cases file with
  | none => exact ⟨_, rfl⟩
  | some content =>
    obtain ⟨i, hi, hf⟩ := h
    obtain ⟨e, he⟩ := Option.ne_none_iff_exists'.mp hf
    simp only [process_file_faulty]
    apply join_futures_error
    refine ⟨e, List.mem_map.mpr ⟨i, List.mem_range.mpr hi, ?_⟩⟩
    simp [he]

theorem process_file_int_pos (fault : Nat → Option String) (order : List Nat) (n : Int)
    (file : Option (List Nat)) (hn : ¬ n ≤ 0) :
    process_file_int fault order n file = some (process_file_faulty fault order n.toNat file) := by
  cases file with
  | none => rfl
  | some content =>
    have h0 : ¬ n = 0 := by omega
    have h1 : ¬ n < 0 := by omega
    simp [process_file_int, h0, h1]

theorem launch_reads_eq (N : Nat) (content : List Nat) :
    launch_reads N content = run_reads (List.range N) N content := rfl

/-! ### The worker count of `main` -/

theorem int_of_unsigned_of_int (n : Int) (hlo : -2147483648 ≤ n) (hhi : n ≤ 2147483647) :
    int_of_unsigned (unsigned_of_int n) = n := by
  unfold int_of_unsigned unsigned_of_int
  split <;> omega

theorem num_threads_of_number (n : Int) (hw : Nat) (hlo : -2147483648 ≤ n)
    (hhi : n ≤ 2147483647) : num_threads_of (Argv2.number n) hw = Except.ok n := by
  simp only [num_threads_of, hlo, hhi, and_self, if_true]
  rw [int_of_unsigned_of_int n hlo hhi]

/-- Runs of `main`: ten workers on the file `a b`; a file that cannot be
opened; no arguments; a worker count that is no number. -/
theorem main_examples :
    main (some "words.txt") (Argv2.number 10) 8 (fun _ => some (bytes "a b")) (fun _ => none)
        (List.range 10) = Outcome.returned ⟨0, some 2, none⟩ ∧
      main (some "missing.txt") Argv2.absent 8 (fun _ => none) (fun _ => none)
          (List.range 8) = Outcome.returned ⟨1, none, some "Failed to open file"⟩ ∧
      main none Argv2.absent 8 (fun _ => none) (fun _ => none) [] =
        Outcome.returned ⟨1, none, some "Usage: argv0 <filename> [num_threads]"⟩ ∧
      main (some "words.txt") Argv2.not_a_number 8 (fun _ => some (bytes "a b"))
          (fun _ => none) [] = Outcome.terminated "stoi" := by
  decide

end WordProcessor

/-! # The claims -/

namespace WordProcessor

/-- C1: for every file content and every worker count `N ≥ 1`, with the locked
reads made in launch order, the unique-word count reported with `N` workers
is a count (the run does not fail) and equals the count reported with one
worker. -/
theorem C1_count_independent_of_worker_count (content : List Nat) (N : Nat) (hN : 1 ≤ N) :
    (process_file N (some content)).map print_result =
        (process_file 1 (some content)).map print_result ∧
      ∃ n, (process_file N (some content)).map print_result = Except.ok n := by
  rw [process_file_eq, process_file_eq,
    reported_count_eq _ N content hN (List.Perm.refl _),
    reported_count_eq _ 1 content (Nat.le_refl 1) (List.Perm.refl _)]
  exact ⟨rfl, _, rfl⟩

/-- Witness for C1: the file `to be or not to be` with four workers. -/
theorem C1_count_independent_of_worker_count_witness :
    1 ≤ 4 ∧
      ((process_file 4 (some (bytes "to be or not to be"))).map print_result =
          (process_file 1 (some (bytes "to be or not to be"))).map print_result ∧
        ∃ n, (process_file 4 (some (bytes "to be or not to be"))).map print_result =
          Except.ok n) :=
  ⟨by decide, C1_count_independent_of_worker_count (bytes "to be or not to be") 4 (by decide)⟩

/-- C2: for every file content, every `N ≥ 1` and every order in which the `N`
workers acquire the lock, the `N` locked reads consume the file exactly once:
the first read starts at offset 0, every read starts where the previous one
stopped, the last one stops at the end of the file leaving nothing in the
stream, the consumed ranges concatenated in read order are the file, and the
bytes consumed by a read are the bytes it placed in its buffer, followed by
the discarded space when it discarded one. -/
theorem C2_reads_consume_file_exactly_once (content : List Nat) (N : Nat) (hN : 1 ≤ N)
    (order : List Nat) (horder : order.Perm (List.range N)) :
    (run_reads order N content).length = N ∧
      (∀ r ∈ (run_reads order N content).head?, r.before.pos = 0) ∧
      List.Chain' (fun a b : ChunkRead => b.before.pos = a.after.pos)
        (run_reads order N content) ∧
      (∀ r ∈ (run_reads order N content).getLast?,
        r.after.pos = content.length ∧ r.after.rest = []) ∧
      (∀ r ∈ run_reads order N content,
        r.before.pos ≤ r.after.pos ∧ r.after.pos ≤ content.length ∧
          (byte_range content r.before.pos r.after.pos = r.buffer ++ [32] ∨
            ∃ k, r.buffer = byte_range content r.before.pos r.after.pos ++ List.replicate k 0)) ∧
      ((run_reads order N content).map
        (fun r => byte_range content r.before.pos r.after.pos)).flatten = content := by
  have hinv : (open_file content).good = false → (open_file content).rest = [] := by
    intro h
    simp [open_file, IfStream.good] at h
  have hlast : N - 1 ∈ order := horder.mem_iff.mpr (List.mem_range.mpr (by omega))
  have hend := end_state_of_mem_last N (chunk_size content.length N) _ _ hinv hlast
  obtain ⟨h1, h2, h3⟩ := locked_reads_ranges content N (chunk_size content.length N)
    order (open_file content) hinv (by simp [open_file]) (by simp [open_file])
  obtain ⟨c1, c2⟩ := locked_reads_chain N (chunk_size content.length N) order
    (open_file content)
  rw [hend] at h2 h3
  refine ⟨?_, ?_, ?_, ?_, h1, ?_⟩
  · simp [run_reads, locked_reads_length, horder.length_eq]
  · intro r hr
    rw [c2 r hr]
    rfl
  · exact c1.imp (fun a b h => by rw [h])
  · intro r hr
    have := locked_reads_getLast N _ _ _ r hr
    rw [this, hend]
    exact ⟨by simpa using h3, rfl⟩
  · simpa [run_reads, open_file] using h2

/-- Witness for C2: three workers on a 25-byte file, the final worker
acquiring the lock second. -/
theorem C2_reads_consume_file_exactly_once_witness :
    1 ≤ 3 ∧ [0, 2, 1].Perm (List.range 3) ∧
      (run_reads [0, 2, 1] 3 (bytes "The cat sat. The cat ran!")).length = 3 ∧
      ((run_reads [0, 2, 1] 3 (bytes "The cat sat. The cat ran!")).map
        (fun r => byte_range (bytes "The cat sat. The cat ran!") r.before.pos
          r.after.pos)).flatten = bytes "The cat sat. The cat ran!" :=
  ⟨by decide, by decide,
    (C2_reads_consume_file_exactly_once (bytes "The cat sat. The cat ran!") 3 (by decide)
      [0, 2, 1] (by decide)).1,
    (C2_reads_consume_file_exactly_once (bytes "The cat sat. The cat ran!") 3 (by decide)
      [0, 2, 1] (by decide)).2.2.2.2.2⟩

/-- C3: for every file content, every `N ≥ 1` and every order in which the `N`
workers acquire the lock, the non-empty normalised tokens of the chunk buffers
of the workers, concatenated in read order, are exactly the non-empty
normalised tokens of the whole file: no word is split, lost or inserted twice
by the chunking. -/
theorem C3_chunking_preserves_token_sequence (content : List Nat) (N : Nat) (hN : 1 ≤ N)
    (order : List Nat) (horder : order.Perm (List.range N)) :
    ((run_reads order N content).map (fun r => norm_tokens r.buffer)).flatten =
      norm_tokens content := by
  have hinv : (open_file content).good = false → (open_file content).rest = [] := by
    intro h
    simp [open_file, IfStream.good] at h
  have hlast : N - 1 ∈ order := horder.mem_iff.mpr (List.mem_range.mpr (by omega))
  have htok := locked_reads_norm_tokens N (chunk_size content.length N) order
    (open_file content) hinv
  rw [end_state_of_mem_last N _ _ _ hinv hlast, norm_tokens_nil, List.append_nil] at htok
  exact htok

/-- Witness for C3: a file whose nominal chunk boundaries fall inside words,
read with the final worker acquiring the lock second. -/
theorem C3_chunking_preserves_token_sequence_witness :
    1 ≤ 3 ∧ [0, 2, 1].Perm (List.range 3) ∧
      ((run_reads [0, 2, 1] 3 (bytes "The cat sat. The cat ran!")).map
          (fun r => norm_tokens r.buffer)).flatten =
        norm_tokens (bytes "The cat sat. The cat ran!") :=
  ⟨by decide, by decide,
    C3_chunking_preserves_token_sequence (bytes "The cat sat. The cat ran!") 3 (by decide)
      [0, 2, 1] (by decide)⟩

/-- C4 as stated fails: on the 2-byte file `ab` with two workers the first
read runs to end-of-stream without discarding any byte, so the buffers are
`ab` and the empty buffer, and putting any byte back at their boundary gives
three bytes. -/
theorem C4_rejoin_counterexample :
    (launch_reads 2 (bytes "ab")).map ChunkRead.buffer = [bytes "ab", []] ∧
      ¬ ∃ sep, rejoin sep ((launch_reads 2 (bytes "ab")).map ChunkRead.buffer) = bytes "ab" := by
  have hb : (launch_reads 2 (bytes "ab")).map ChunkRead.buffer = [bytes "ab", []] := by decide
  refine ⟨hb, ?_⟩
  rintro ⟨sep, h⟩
  rw [hb] at h
  have hlen := congrArg List.length h
  simp [rejoin, bytes] at hlen

/-- C4, amended: for every file content and every `N ≥ 1`, when every locked
read leaves the stream in a good state (each non-final read stopped at a space
and discarded it), the chunk buffers joined in read order with one space byte
put back at each internal boundary are exactly the file. -/
theorem C4_rejoin_with_spaces (content : List Nat) (N : Nat) (hN : 1 ≤ N)
    (hgood : ∀ r ∈ launch_reads N content, r.after.good = true) :
    rejoin 32 ((launch_reads N content).map ChunkRead.buffer) = content := by
  obtain ⟨m, rfl⟩ : ∃ m, N = m + 1 := ⟨N - 1, by omega⟩
  have hinv : (open_file content).good = false → (open_file content).rest = [] := by
    intro h
    simp [open_file, IfStream.good] at h
  unfold launch_reads at hgood ⊢
  rw [List.range_succ, locked_reads_append] at hgood ⊢
  have hnf : ∀ i ∈ List.range m, i ≠ m + 1 - 1 := by
    intro i hi
    have := List.mem_range.mp hi
    omega
  have hjoin := locked_reads_rejoin (m + 1) (chunk_size content.length (m + 1)) (List.range m)
    (open_file content) hinv hnf (fun r hr => hgood r (List.mem_append_left _ hr))
  have hfinal : locked_reads (m + 1) (chunk_size content.length (m + 1)) [m]
      (end_state (m + 1) (chunk_size content.length (m + 1)) (List.range m)
        (open_file content)) =
      [{ worker := m
         before := end_state (m + 1) (chunk_size content.length (m + 1)) (List.range m)
           (open_file content)
         after := (read_chunk (end_state (m + 1) (chunk_size content.length (m + 1))
           (List.range m) (open_file content)) (chunk_size content.length (m + 1)) true).1
         buffer := (end_state (m + 1) (chunk_size content.length (m + 1)) (List.range m)
           (open_file content)).rest }] := by
    simp [locked_reads, read_chunk]
  rw [hfinal, List.map_append, List.map_singleton, rejoin_append_singleton, List.map_map]
  exact hjoin

/-- Witness for C4, amended: three workers on `to be or not to be`, each
non-final read stopping at a space. -/
theorem C4_rejoin_with_spaces_witness :
    1 ≤ 3 ∧ (∀ r ∈ launch_reads 3 (bytes "to be or not to be"), r.after.good = true) ∧
      rejoin 32 ((launch_reads 3 (bytes "to be or not to be")).map ChunkRead.buffer) =
        bytes "to be or not to be" :=
  ⟨by decide, by decide,
    C4_rejoin_with_spaces (bytes "to be or not to be") 3 (by decide) (by decide)⟩

/-- C5: for a fixed worker count `N ≥ 1` and fixed file content, every order
in which the `N` workers acquire the lock and make their atomic reads,
wherever the worker flagged final falls in it, gives the same reported count
as the launch order. -/
theorem C5_count_independent_of_lock_order (content : List Nat) (N : Nat) (hN : 1 ≤ N)
    (order : List Nat) (horder : order.Perm (List.range N)) :
    reported_count order N (some content) = reported_count (List.range N) N (some content) ∧
      ∃ n, reported_count order N (some content) = Except.ok n := by
  rw [reported_count_eq order N content hN horder,
    reported_count_eq _ N content hN (List.Perm.refl _)]
  exact ⟨rfl, _, rfl⟩

/-- Witness for C5: three workers, the final one acquiring the lock first. -/
theorem C5_count_independent_of_lock_order_witness :
    1 ≤ 3 ∧ [2, 0, 1].Perm (List.range 3) ∧
      (reported_count [2, 0, 1] 3 (some (bytes "The cat sat. The cat ran!")) =
          reported_count (List.range 3) 3 (some (bytes "The cat sat. The cat ran!")) ∧
        ∃ n, reported_count [2, 0, 1] 3 (some (bytes "The cat sat. The cat ran!")) =
          Except.ok n) :=
  ⟨by decide, by decide,
    C5_count_independent_of_lock_order (bytes "The cat sat. The cat ran!") 3 (by decide)
      [2, 0, 1] (by decide)⟩

/-- C6: for the input `The cat sat. The cat ran!` the normalised tokens are
the, cat, sat, the, cat, ran and the reported count is 4 with one worker and
with three workers, whose nominal chunk boundaries (offsets 8 and 21) fall
inside the text. -/
theorem C6_the_cat_sat_scenario :
    norm_tokens (bytes "The cat sat. The cat ran!") =
        [bytes "the", bytes "cat", bytes "sat", bytes "the", bytes "cat", bytes "ran"] ∧
      (process_file 1 (some (bytes "The cat sat. The cat ran!"))).map print_result =
        Except.ok 4 ∧
      (process_file 3 (some (bytes "The cat sat. The cat ran!"))).map print_result =
        Except.ok 4 ∧
      (launch_reads 3 (bytes "The cat sat. The cat ran!")).map ChunkRead.buffer =
        [bytes "The cat sat.", bytes "The cat ran!", []] :=
  ⟨by decide, rfl, rfl, by decide⟩

/-- C7: for every worker count `N ≥ 1`, processing the empty file, and
processing a file made only of whitespace bytes (space, tab, newline, carriage
return, vertical tab, form feed), does not fail and reports the count 0. -/
theorem C7_empty_and_whitespace_files (N : Nat) (hN : 1 ≤ N) (content : List Nat)
    (hws : ∀ c ∈ content, c = 32 ∨ c = 9 ∨ c = 10 ∨ c = 13 ∨ c = 11 ∨ c = 12) :
    (process_file N (some [])).map print_result = Except.ok 0 ∧
      (process_file N (some content)).map print_result = Except.ok 0 := by
  have hnil : norm_tokens [] = [] := rfl
  have hcontent : norm_tokens content = [] := by
    have : tokens content = [] := by
      apply tokens_from_whitespace
      intro c hc
      rcases hws c hc with h | h | h | h | h | h <;> subst h <;> rfl
    simp [norm_tokens, this]
  rw [process_file_eq, process_file_eq, reported_count_eq _ N [] hN (List.Perm.refl _),
    reported_count_eq _ N content hN (List.Perm.refl _), hnil, hcontent]
  exact ⟨rfl, rfl⟩

/-- Witness for C7: five workers on a file holding one of each whitespace
byte. -/
theorem C7_empty_and_whitespace_files_witness :
    1 ≤ 5 ∧ (∀ c ∈ [32, 9, 10, 13, 11, 12], c = 32 ∨ c = 9 ∨ c = 10 ∨ c = 13 ∨ c = 11 ∨ c = 12) ∧
      ((process_file 5 (some [])).map print_result = Except.ok 0 ∧
        (process_file 5 (some [32, 9, 10, 13, 11, 12])).map print_result = Except.ok 0) :=
  ⟨by decide, by decide,
    C7_empty_and_whitespace_files 5 (by decide) [32, 9, 10, 13, 11, 12] (by decide)⟩

/-- C8: for every file whose byte length is smaller than the worker count the
nominal chunk size is 0, processing does not fail and the reported count is
the number of distinct normalised words of the file; in particular the 3-byte
file `a b` with 10 workers reports 2. -/
theorem C8_more_workers_than_bytes (content : List Nat) (N : Nat)
    (hlt : content.length < N) :
    chunk_size content.length N = 0 ∧
      (process_file N (some content)).map print_result =
        Except.ok (norm_tokens content).toFinset.card ∧
      (process_file 10 (some (bytes "a b"))).map print_result = Except.ok 2 := by
  refine ⟨Nat.div_eq_of_lt hlt, ?_, rfl⟩
  rw [process_file_eq, reported_count_eq _ N content (by omega) (List.Perm.refl _),
    List.card_toFinset]

/-- Witness for C8: the file `a b` with 10 workers. -/
theorem C8_more_workers_than_bytes_witness :
    (bytes "a b").length < 10 ∧
      chunk_size (bytes "a b").length 10 = 0 ∧
      (process_file 10 (some (bytes "a b"))).map print_result =
        Except.ok (norm_tokens (bytes "a b")).toFinset.card ∧
      (process_file 10 (some (bytes "a b"))).map print_result = Except.ok 2 :=
  ⟨by decide, C8_more_workers_than_bytes (bytes "a b") 10 (by decide)⟩

/-- C9: for every list of per-worker word sets the vocabulary built by the
merge loop is duplicate-free and is the set union of the word sets, so the
count is the cardinality of the union (for two equal one-word sets it is 1,
not the sum 2), and the count is the same for every permutation of the order
in which the word sets are merged. -/
theorem C9_merge_is_union (sets sets2 : List (List (List Nat))) (hperm : sets2.Perm sets) :
    (merge sets).Nodup ∧
      (merge sets).toFinset = (sets.map List.toFinset).foldr (fun a b => a ∪ b) ∅ ∧
      print_result (merge sets) = ((sets.map List.toFinset).foldr (fun a b => a ∪ b) ∅).card ∧
      print_result (merge sets2) = print_result (merge sets) ∧
      print_result (merge [[bytes "the"], [bytes "the"]]) = 1 := by
  have hunion : (merge sets).toFinset = (sets.map List.toFinset).foldr (fun a b => a ∪ b) ∅ := by
    ext w
    rw [List.mem_toFinset, mem_merge, mem_foldr_union]
  refine ⟨nodup_merge sets, hunion, ?_, ?_, by decide⟩
  · rw [← hunion, List.toFinset_card_of_nodup (nodup_merge sets)]
    rfl
  · have hp : (merge sets2).Perm (merge sets) := by
      rw [List.perm_ext_iff_of_nodup (nodup_merge _) (nodup_merge _)]
      intro w
      simp only [mem_merge, hperm.mem_iff]
    exact hp.length_eq

/-- Witness for C9: two overlapping word sets merged in both orders. -/
theorem C9_merge_is_union_witness :
    [[bytes "cat"], [bytes "the", bytes "cat"]].Perm [[bytes "the", bytes "cat"], [bytes "cat"]] ∧
      print_result (merge [[bytes "cat"], [bytes "the", bytes "cat"]]) =
        print_result (merge [[bytes "the", bytes "cat"], [bytes "cat"]]) :=
  ⟨by decide,
    (C9_merge_is_union [[bytes "the", bytes "cat"], [bytes "cat"]]
      [[bytes "cat"], [bytes "the", bytes "cat"]] (by decide)).2.2.2.1⟩

/-- C10: for every raw token, `clean_word` returns the bytes of the token that
are ASCII digits (48..57) or ASCII letters (65..90, 97..122), in their
original order, with every upper-case letter (65..90) replaced by its
lower-case form (97..122); all other bytes, in particular every byte from 128
up, are removed. -/
theorem C10_clean_word_keeps_lowercased_alnum (word : List Nat) :
    clean_word word =
        (word.filter (fun c =>
          decide ((48 ≤ c ∧ c ≤ 57) ∨ (65 ≤ c ∧ c ≤ 90) ∨ (97 ≤ c ∧ c ≤ 122)))).map
          (fun c => if 65 ≤ c ∧ c ≤ 90 then c + 32 else c) ∧
      clean_word (word.filter (fun c => decide (c < 128))) = clean_word word ∧
      (∀ c ∈ clean_word word, (48 ≤ c ∧ c ≤ 57) ∨ (97 ≤ c ∧ c ≤ 122)) := by
  have hfilter : ∀ c, isalnum c =
      decide ((48 ≤ c ∧ c ≤ 57) ∨ (65 ≤ c ∧ c ≤ 90) ∨ (97 ≤ c ∧ c ≤ 122)) := by
    intro c
    simp [isalnum, Bool.decide_or, Bool.decide_and, Bool.or_assoc]
  refine ⟨?_, ?_, ?_⟩
  · unfold clean_word
    rw [List.filter_congr (fun c _ => hfilter c)]
    rfl
  · unfold clean_word
    rw [List.filter_filter]
    congr 1
    apply List.filter_congr
    intro c _
    rw [hfilter]
    by_cases h : c < 128
    · simp [h]
    · simp only [h, decide_False, Bool.and_false]
      symm
      apply decide_eq_false
      omega
  · intro c hc
    unfold clean_word at hc
    obtain ⟨x, hx, rfl⟩ := List.mem_map.mp hc
    have hx2 := (List.mem_filter.mp hx).2
    rw [hfilter] at hx2
    have hx3 := of_decide_eq_true hx2
    unfold tolower
    split <;> omega

/-- C11 as stated fails: on a stream holding `ab`, newline, `cd ef` a read of
nominal size 2 with boundary extension does not stop at the newline, the first
whitespace byte after the two bytes: it returns `ab`, newline, `cd` and leaves
the cursor at offset 6, after the space. -/
theorem C11_extension_counterexample :
    (read_chunk (open_file [97, 98, 10, 99, 100, 32, 101, 102]) 2 false).2 =
        [97, 98, 10, 99, 100] ∧
      (read_chunk (open_file [97, 98, 10, 99, 100, 32, 101, 102]) 2 false).1.pos = 6 ∧
      isspace 10 = true ∧
      (read_chunk (open_file [97, 98, 10, 99, 100, 32, 101, 102]) 2 false).2 ≠
        [97, 98, 10, 99, 100, 32, 101, 102].take 2 ++
          ([97, 98, 10, 99, 100, 32, 101, 102].drop 2).takeWhile (fun c => !isspace c) := by
  decide

/-- C11, amended: on every good stream holding at least `requested_size`
unread bytes, a read with boundary extension returns exactly the
`requested_size` bytes at the cursor followed by the bytes up to, but not
including, the first space byte (32) after them, or up to end-of-stream when
there is none; the space byte is consumed and discarded, the stream stays good
and the cursor is left exactly after it. -/
theorem C11_extension_to_next_space (file : IfStream) (requested_size : Nat)
    (hgood : file.good = true) (hsize : requested_size ≤ file.rest.length) :
    (read_chunk file requested_size false).2 =
        file.rest.take requested_size ++
          (file.rest.drop requested_size).takeWhile (fun c => decide (c ≠ 32)) ∧
      (32 ∈ file.rest.drop requested_size →
        (read_chunk file requested_size false).1.good = true ∧
          file.rest = (read_chunk file requested_size false).2 ++
            32 :: (read_chunk file requested_size false).1.rest ∧
          (read_chunk file requested_size false).1.pos =
            file.pos + (read_chunk file requested_size false).2.length + 1) ∧
      (32 ∉ file.rest.drop requested_size →
        (read_chunk file requested_size false).2 = file.rest ∧
          (read_chunk file requested_size false).1.rest = [] ∧
          (read_chunk file requested_size false).1.pos = file.pos + file.rest.length) := by
  obtain ⟨rest, pos, e, f⟩ := file
  obtain ⟨rfl, rfl⟩ : e = false ∧ f = false := by simpa [IfStream.good] using hgood
  simp only at hsize ⊢
  rw [read_chunk_full rest pos requested_size hsize]
  rcases adjust_boundary_good (rest.drop requested_size) (pos + requested_size)
    (rest.take requested_size) with ⟨ext, tl, e1, e2, e3⟩ | ⟨e1, e3⟩
  · have hmem : 32 ∈ rest.drop requested_size := by
      rw [e2]
      simp
    rw [e3]
    refine ⟨?_, fun _ => ⟨rfl, ?_, ?_⟩, fun h => absurd hmem h⟩
    · rw [e2, takeWhile_ne_space ext tl e1]
    · simp only [List.append_assoc]
      rw [← e2, List.take_append_drop]
    · simp only [List.length_append, List.length_take]
      omega
  · rw [e3]
    refine ⟨?_, fun h => absurd h e1, fun _ => ⟨?_, rfl, ?_⟩⟩
    · rw [takeWhile_no_space _ e1]
    · simp
    · simp only [List.length_drop]
      omega

/-- Witness for C11, amended: nominal size 2 on a stream holding `ab`,
newline, `cd ef`. -/
theorem C11_extension_to_next_space_witness :
    (open_file [97, 98, 10, 99, 100, 32, 101, 102]).good = true ∧
      2 ≤ (open_file [97, 98, 10, 99, 100, 32, 101, 102]).rest.length ∧
      (read_chunk (open_file [97, 98, 10, 99, 100, 32, 101, 102]) 2 false).2 =
        (open_file [97, 98, 10, 99, 100, 32, 101, 102]).rest.take 2 ++
          ((open_file [97, 98, 10, 99, 100, 32, 101, 102]).rest.drop 2).takeWhile
            (fun c => decide (c ≠ 32)) :=
  ⟨by decide, by decide,
    (C11_extension_to_next_space (open_file [97, 98, 10, 99, 100, 32, 101, 102]) 2
      (by decide) (by decide)).1⟩

/-- C12: if the task of any single worker fails, `process_file` as a whole
fails, whatever the other workers returned and whichever workers made their
read, and `main` then ends with exit code 1 and an error message without
writing a count; conversely, whenever `main` writes a count it returns 0, it
did obtain a worker count, and no worker has failed. -/
theorem C12_worker_failure_is_fatal (fault : Nat → Option String) (order : List Nat)
    (N : Nat) (file : Option (List Nat)) (i : Nat) (hi : i < N) (hfault : fault i ≠ none) :
    (∃ e, process_file_faulty fault order N file = Except.error e) ∧
      (∀ (name : String) (arg : Argv2) (hardware_concurrency : Nat)
        (fs : String → Option (List Nat)),
        num_threads_of arg hardware_concurrency = Except.ok (N : Int) → fs name = file →
        ∃ e, main (some name) arg hardware_concurrency fs fault order =
          Outcome.returned ⟨1, none, some e⟩) ∧
      (∀ (name : String) (hardware_concurrency : Nat) (fs : String → Option (List Nat)),
        (N : Int) ≤ 2147483647 → fs name = file →
        ∃ e, main (some name) (Argv2.number (N : Int)) hardware_concurrency fs fault order =
          Outcome.returned ⟨1, none, some e⟩) ∧
      (∀ (filename : Option String) (arg : Argv2) (hardware_concurrency : Nat)
        (fs : String → Option (List Nat)) (fault2 : Nat → Option String) (order2 : List Nat)
        (r : MainResult),
        main filename arg hardware_concurrency fs fault2 order2 = Outcome.returned r →
        r.stdout ≠ none →
        r.exit_code = 0 ∧
          ∃ n : Int, num_threads_of arg hardware_concurrency = Except.ok n ∧ 1 ≤ n ∧
            ∀ j, j < n.toNat → fault2 j = none) := by
  have hfail := process_file_faulty_error fault order N file ⟨i, hi, hfault⟩
  have hmain : ∀ (name : String) (arg : Argv2) (hw : Nat) (fs : String → Option (List Nat)),
      num_threads_of arg hw = Except.ok (N : Int) → fs name = file →
      ∃ e, main (some name) arg hw fs fault order = Outcome.returned ⟨1, none, some e⟩ := by
    intro name arg hw fs hnum hfs
    obtain ⟨e, he⟩ := hfail
    have hpos : ¬ ((N : Int) ≤ 0) := by omega
    refine ⟨e, ?_⟩
    simp only [main, hnum, hpos, if_false]
    rw [process_file_int_pos fault order _ _ hpos, hfs, Int.toNat_ofNat, he]
  refine ⟨hfail, hmain, ?_, ?_⟩
  · intro name hw fs hfit hfs
    exact hmain name _ hw fs (num_threads_of_number _ hw (by omega) hfit) hfs
  · intro filename arg hw fs fault2 order2 r hrun hout
    cases filename with
    | none =>
      simp only [main, Outcome.returned.injEq] at hrun
      subst hrun
      exact absurd rfl hout
    | some name =>
      cases hnum : num_threads_of arg hw with
      | error what => simp [main, hnum] at hrun
      | ok n =>
        by_cases hpos : n ≤ 0
        · simp only [main, hnum, hpos, if_true, Outcome.returned.injEq] at hrun
          subst hrun
          exact absurd rfl hout
        · simp only [main, hnum, hpos, if_false] at hrun
          rw [process_file_int_pos fault2 order2 _ _ hpos] at hrun
          by_cases hall : ∃ j, j < n.toNat ∧ fault2 j ≠ none
          · obtain ⟨e, he⟩ := process_file_faulty_error fault2 order2 _ (fs name) hall
            rw [he] at hrun
            simp only [Outcome.returned.injEq] at hrun
            subst hrun
            exact absurd rfl hout
          · have hnone : ∀ j, j < n.toNat → fault2 j = none := by
              intro j hj
              by_contra hne
              exact hall ⟨j, hj, hne⟩
            cases hres : process_file_faulty fault2 order2 n.toNat (fs name) with
            | error e =>
              rw [hres] at hrun
              simp only [Outcome.returned.injEq] at hrun
              subst hrun
              exact absurd rfl hout
            | ok words_ =>
              rw [hres] at hrun
              simp only [Outcome.returned.injEq] at hrun
              subst hrun
              exact ⟨rfl, n, rfl, by omega, hnone⟩

/-- Witness for C12: three workers on `a b c`, the task of worker 1 ending
with `std::bad_alloc`. -/
theorem C12_worker_failure_is_fatal_witness :
    1 < 3 ∧ (fun i => if i = 1 then some "std::bad_alloc" else none) 1 ≠ none ∧
      ∃ e, process_file_faulty (fun i => if i = 1 then some "std::bad_alloc" else none)
        [0, 1, 2] 3 (some (bytes "a b c")) = Except.error e :=
  ⟨by decide, by decide,
    (C12_worker_failure_is_fatal (fun i => if i = 1 then some "std::bad_alloc" else none)
      [0, 1, 2] 3 (some (bytes "a b c")) 1 (by decide) (by decide)).1⟩

/-- C14: for every chunk buffer `extract_unique_words` returns a duplicate-free
set whose members are exactly the non-empty `clean_word t` for `t` a maximal
run of non-whitespace bytes of the buffer; it never contains the empty string,
and a token made only of non-alphanumeric bytes cleans to the empty string and
so contributes nothing. -/
theorem C14_extract_unique_words_spec (chunk : List Nat) :
    (extract_unique_words chunk).Nodup ∧
      (∀ w, w ∈ extract_unique_words chunk ↔
        w ≠ [] ∧ ∃ t, maximal_run chunk t ∧ clean_word t = w) ∧
      [] ∉ extract_unique_words chunk ∧
      (∀ t, (∀ c ∈ t, isalnum c = false) → clean_word t = []) := by
  have hmem : ∀ w, w ∈ extract_unique_words chunk ↔
      w ≠ [] ∧ ∃ t, maximal_run chunk t ∧ clean_word t = w := by
    intro w
    rw [mem_extract_unique_words, mem_norm_tokens]
    constructor
    · rintro ⟨h1, t, h2, h3⟩
      exact ⟨h1, t, (mem_tokens_iff chunk t).mp h2, h3⟩
    · rintro ⟨h1, t, h2, h3⟩
      exact ⟨h1, t, (mem_tokens_iff chunk t).mpr h2, h3⟩
  refine ⟨nodup_extract_unique_words chunk, hmem, ?_, ?_⟩
  · intro h
    exact ((hmem []).mp h).1 rfl
  · intro t ht
    unfold clean_word
    rw [List.filter_eq_nil_iff.mpr (fun c hc => by simp [ht c hc])]
    rfl

/-- C16 does not hold of the code: on the file `abcde f` with three workers
(nominal size 2) the second worker consumes the single byte `f` at offset 6,
yet the buffer it tokenises is `f` followed by a zero byte that was never read
from the file, left there by the `resize` before the short `read`. -/
theorem C16_buffer_holds_unread_filler :
    chunk_size (bytes "abcde f").length 3 = 2 ∧
      (launch_reads 3 (bytes "abcde f")).map
          (fun r => (r.worker, r.before.pos, r.after.pos, r.buffer)) =
        [(0, 0, 6, bytes "abcde"), (1, 6, 7, [102, 0]), (2, 7, 7, [])] ∧
      byte_range (bytes "abcde f") 6 7 = [102] ∧
      0 ∉ bytes "abcde f" := by
  decide

/-- C17: for every stream state, whatever its flags, the read of the worker
flagged final returns exactly the bytes from the cursor through end-of-stream,
unchanged and without stopping at any whitespace, and leaves the cursor at
end-of-stream with the flags untouched; on a stream already at end-of-stream
the buffer is empty.  With the cursor at offset `pos` of `content`, the buffer
is the range from `pos` to the length of `content`. -/
theorem C17_final_read_takes_the_rest (file : IfStream) (chunk_size : Nat) :
    (read_chunk file chunk_size true).2 = file.rest ∧
      (read_chunk file chunk_size true).1.rest = [] ∧
      (read_chunk file chunk_size true).1.pos = file.pos + file.rest.length ∧
      (read_chunk file chunk_size true).1.eofbit = file.eofbit ∧
      (read_chunk file chunk_size true).1.failbit = file.failbit ∧
      (file.rest = [] → (read_chunk file chunk_size true).2 = []) ∧
      (∀ content : List Nat, content.drop file.pos = file.rest →
        file.pos + file.rest.length = content.length →
        (read_chunk file chunk_size true).2 = byte_range content file.pos content.length ∧
          (read_chunk file chunk_size true).1.pos = content.length) := by
  rw [read_chunk_last]
  refine ⟨rfl, rfl, rfl, rfl, rfl, fun h => h, ?_⟩
  intro content hdrop hlen
  refine ⟨?_, hlen⟩
  simp only [byte_range, hdrop]
  rw [List.take_of_length_le (by omega)]

/-- C18: a non-final worker whose locked read starts with the cursor at
end-of-stream, or with the stream not good, gets a buffer of `chunk_size`
zero filler bytes and returns an empty word set, also when `chunk_size` is
positive; in particular this holds for every such read of a run of `N ≥ 1`
workers on any file. -/
theorem C18_filler_yields_no_word (file : IfStream) (chunk_size : Nat)
    (h : file.rest = [] ∨ file.good = false) :
    (read_chunk file chunk_size false).2 = List.replicate chunk_size 0 ∧
      (process_chunk file chunk_size false).2 = [] ∧
      (∀ (content : List Nat) (N : Nat), 1 ≤ N → ∀ r ∈ launch_reads N content,
        r.worker ≠ N - 1 → (r.before.rest = [] ∨ r.before.good = false) →
          r.buffer = List.replicate (WordProcessor.chunk_size content.length N) 0 ∧
            future_get r.worker (launch_reads N content) = []) := by
  have hbuf := read_chunk_exhausted file chunk_size h
  refine ⟨hbuf, ?_, ?_⟩
  · simp only [process_chunk]
    rw [hbuf]
    exact extract_unique_words_eq_nil _ (norm_tokens_zeros _)
  · intro content N _ r hr hw hstate
    obtain ⟨_, _, h3⟩ := locked_reads_mem N _ _ _ r hr
    have hflag : (r.worker == N - 1) = false := by simpa using hw
    rw [hflag] at h3
    have hb : r.buffer = List.replicate (WordProcessor.chunk_size content.length N) 0 := by
      rw [h3]
      exact read_chunk_exhausted _ _ hstate
    refine ⟨hb, ?_⟩
    have hnd : ((launch_reads N content).map ChunkRead.worker).Nodup := by
      unfold launch_reads
      rw [locked_reads_workers]
      exact List.nodup_range N
    rw [future_get_of_mem _ r hnd hr, hb]
    exact extract_unique_words_eq_nil _ (norm_tokens_zeros _)

/-- Witness for C18: a stream at end-of-stream with its flags set, and a
nominal size of 2. -/
theorem C18_filler_yields_no_word_witness :
    (read_chunk ⟨[], 6, true, true⟩ 2 false).2 = [0, 0] ∧
      (process_chunk ⟨[], 6, true, true⟩ 2 false).2 = [] :=
  ⟨(C18_filler_yields_no_word ⟨[], 6, true, true⟩ 2 (Or.inl rfl)).1,
    (C18_filler_yields_no_word ⟨[], 6, true, true⟩ 2 (Or.inl rfl)).2.1⟩

/-- C19: `clean_word` is idempotent and its output alphabet is closed: for
every byte string `w`, every byte of `clean_word w` is a digit (48..57) or a
lower-case letter (97..122), cleaning the result again changes nothing, and
the result is no longer than `w`. -/
theorem C19_clean_word_idempotent (w : List Nat) :
    (∀ c ∈ clean_word w, (48 ≤ c ∧ c ≤ 57) ∨ (97 ≤ c ∧ c ≤ 122)) ∧
      clean_word (clean_word w) = clean_word w ∧
      (clean_word w).length ≤ w.length := by
  have halpha : ∀ c ∈ clean_word w, (48 ≤ c ∧ c ≤ 57) ∨ (97 ≤ c ∧ c ≤ 122) := by
    intro c hc
    unfold clean_word at hc
    obtain ⟨x, hx, rfl⟩ := List.mem_map.mp hc
    have hx2 := (List.mem_filter.mp hx).2
    simp only [isalnum, Bool.or_eq_true, Bool.and_eq_true, decide_eq_true_eq] at hx2
    unfold tolower
    split <;> omega
  refine ⟨halpha, ?_, ?_⟩
  · have hfix : ∀ l : List Nat, (∀ c ∈ l, (48 ≤ c ∧ c ≤ 57) ∨ (97 ≤ c ∧ c ≤ 122)) →
        clean_word l = l := by
      intro l
      induction l with
      | nil => intro _; rfl
      | cons c cs ih =>
        intro h
        have hc := h c (List.mem_cons_self _ _)
        have hcs := ih (fun x hx => h x (List.mem_cons_of_mem _ hx))
        have halnum : isalnum c = true := by
          simp only [isalnum, Bool.or_eq_true, Bool.and_eq_true, decide_eq_true_eq]
          omega
        have hlow : tolower c = c := by
          unfold tolower
          split
          · omega
          · rfl
        unfold clean_word at hcs ⊢
        rw [List.filter_cons_of_pos halnum, List.map_cons, hlow, hcs]
    exact hfix _ halpha
  · unfold clean_word
    rw [List.length_map]
    exact List.length_filter_le _ _

/-- C20: the count is insensitive to ASCII letter case: for every file
content, every `N ≥ 1` and every choice of positions, replacing the letters
at those positions by their opposite-case forms, which keeps the length and
every other byte, yields the same reported unique-word count. -/
theorem C20_count_ignores_letter_case (content : List Nat) (N : Nat) (hN : 1 ≤ N)
    (flips : List Bool) :
    (process_file N (some (recase flips content))).map print_result =
        (process_file N (some content)).map print_result ∧
      (recase flips content).length = content.length ∧
      norm_tokens (recase flips content) = norm_tokens content := by
  refine ⟨?_, recase_length flips content, norm_tokens_recase flips content⟩
  rw [process_file_eq, process_file_eq, reported_count_eq _ N _ hN (List.Perm.refl _),
    reported_count_eq _ N content hN (List.Perm.refl _), norm_tokens_recase]

/-- Witness for C20: `The cat. THE CAT` against `tHE Cat. The cAT` with two
workers. -/
theorem C20_count_ignores_letter_case_witness :
    1 ≤ 2 ∧
      recase [true, true, true, false, true, false, false, false, false, false, true, true,
          false, true, false, false] (bytes "The cat. THE CAT") = bytes "tHE Cat. The cAT" ∧
      (process_file 2 (some (recase [true, true, true, false, true, false, false, false, false,
          false, true, true, false, true, false, false] (bytes "The cat. THE CAT")))).map
          print_result =
        (process_file 2 (some (bytes "The cat. THE CAT"))).map print_result :=
  ⟨by decide, by decide,
    (C20_count_ignores_letter_case (bytes "The cat. THE CAT") 2 (by decide)
      [true, true, true, false, true, false, false, false, false, false, true, true,
        false, true, false, false]).1⟩

end WordProcessor
